import Mathlib

/-!
Verification of the ShellSplit repository (`main.go`).

The program works over the bytes of a Go string, decoding UTF-8 runes with
`utf8.DecodeRune`.  We model byte strings as `List Nat` (each element a byte)
and runes as `Nat` code points.  Go's `utf8.RuneError` is the code point
`0xFFFD`; `utf8.DecodeRune` returns `(0xFFFD, 1)` on an invalid encoding
(and `(0xFFFD, 0)` on empty input), and returns `(0xFFFD, 3)` on a valid
encoding of U+FFFD itself.
-/

/-- Go `utf8.DecodeRune`, two-byte case: first byte in `0xC2..0xDF`,
continuation byte in `0x80..0xBF`. -/
def decode2 (b0 : Nat) : List Nat → Nat × Nat
  | b1 :: _ =>
    if 0x80 ≤ b1 ∧ b1 < 0xC0 then ((b0 - 0xC0) * 64 + (b1 - 0x80), 2)
    else (0xFFFD, 1)
  | [] => (0xFFFD, 1)

/-- Go `utf8.DecodeRune`, three-byte case: first byte in `0xE0..0xEF`, second
byte restricted by the accept-range table (`0xA0..0xBF` after `0xE0`,
`0x80..0x9F` after `0xED`, otherwise `0x80..0xBF`), third in `0x80..0xBF`. -/
def decode3 (b0 : Nat) : List Nat → Nat × Nat
  | b1 :: b2 :: _ =>
    if ((if b0 = 0xE0 then 0xA0 else 0x80) ≤ b1 ∧
        b1 ≤ (if b0 = 0xED then 0x9F else 0xBF)) ∧ (0x80 ≤ b2 ∧ b2 < 0xC0) then
      ((b0 - 0xE0) * 4096 + (b1 - 0x80) * 64 + (b2 - 0x80), 3)
    else (0xFFFD, 1)
  | _ => (0xFFFD, 1)

/-- Go `utf8.DecodeRune`, four-byte case: first byte in `0xF0..0xF4`, second
byte restricted by the accept-range table (`0x90..0xBF` after `0xF0`,
`0x80..0x8F` after `0xF4`, otherwise `0x80..0xBF`), rest in `0x80..0xBF`. -/
def decode4 (b0 : Nat) : List Nat → Nat × Nat
  | b1 :: b2 :: b3 :: _ =>
    if ((if b0 = 0xF0 then 0x90 else 0x80) ≤ b1 ∧
        b1 ≤ (if b0 = 0xF4 then 0x8F else 0xBF)) ∧
       (0x80 ≤ b2 ∧ b2 < 0xC0) ∧ (0x80 ≤ b3 ∧ b3 < 0xC0) then
      ((b0 - 0xF0) * 262144 + (b1 - 0x80) * 4096 + (b2 - 0x80) * 64 + (b3 - 0x80), 4)
    else (0xFFFD, 1)
  | _ => (0xFFFD, 1)

/-- Go `utf8.DecodeRune` on a byte string: returns the first rune and the
number of bytes it occupies; `(0xFFFD, 0)` on empty input, `(0xFFFD, 1)`
on an invalid encoding. -/
def decodeRune : List Nat → Nat × Nat
  | [] => (0xFFFD, 0)
  | b0 :: rest =>
    if b0 < 0x80 then (b0, 1)
    else if b0 < 0xC2 then (0xFFFD, 1)
    else if b0 < 0xE0 then decode2 b0 rest
    else if b0 < 0xF0 then decode3 b0 rest
    else if b0 < 0xF5 then decode4 b0 rest
    else (0xFFFD, 1)

/-- A Unicode scalar value: below the surrogate range or between it and
0x110000.  These are exactly the code points Go encodes faithfully. -/
def validChar (c : Nat) : Prop := c < 0xD800 ∨ (0xE000 ≤ c ∧ c < 0x110000)

instance (c : Nat) : Decidable (validChar c) := by
  unfold validChar; exact inferInstance

/-- Go `utf8.EncodeRune` for a valid scalar value (UTF-8 encoding). -/
def encodeChar (c : Nat) : List Nat :=
  if c < 0x80 then [c]
  else if c < 0x800 then [0xC0 + c / 64, 0x80 + c % 64]
  else if c < 0x10000 then [0xE0 + c / 4096, 0x80 + c / 64 % 64, 0x80 + c % 64]
  else [0xF0 + c / 262144, 0x80 + c / 4096 % 64, 0x80 + c / 64 % 64, 0x80 + c % 64]

/-- UTF-8 encoding of a list of code points, concatenated. -/
def encodeList : List Nat → List Nat
  | [] => []
  | c :: cs => encodeChar c ++ encodeList cs

/-- Go `unicode.IsSpace`: the White_Space property. -/
def isSpace (r : Nat) : Bool :=
  (0x09 ≤ r && r ≤ 0x0D) || r == 0x20 || r == 0x85 || r == 0xA0 ||
  r == 0x1680 || (0x2000 ≤ r && r ≤ 0x200A) || r == 0x2028 || r == 0x2029 ||
  r == 0x202F || r == 0x205F || r == 0x3000

/-- Byte string used by Lean-side literals: UTF-8 bytes of a `String`. -/
def strBytes (s : String) : List Nat := encodeList (s.data.map Char.toNat)

/-- Errors of `ShellSplitEx`, mirroring the `WrapTraceableErrorf` messages in
`main.go`.  Each `invalid…` constructor carries the offending byte `b[idx]`,
the index `idx` and the consumed prefix `b[:idx]`, as the corresponding
message does; `noEndQuote` carries the quote rune; `quoteWrap` carries the
index just after the opening quote and the prefix `b[:start]`, wrapping the
inner error, as in `findSplitCh`.  `fuelOut` is an artifact of the fuel-based
embedding; it is never reached when the scanner is run with its actual fuel
(`length + 1`), as the success/error lemmas below show. -/
inductive SplitErr where
  | invalidSkip (ch : Nat) (idx : Nat) (pre : List Nat)
  | invalidQuote (ch : Nat) (idx : Nat) (pre : List Nat)
  | invalidFind (ch : Nat) (idx : Nat) (pre : List Nat)
  | noEndQuote (q : Nat)
  | quoteWrap (start : Nat) (pre : List Nat) (inner : SplitErr)
  | fuelOut
  deriving DecidableEq, Repr

/-- The `skipSplitCh` closure of `ShellSplitEx`: advance the cursor over
consecutive separator runes; stop (returning the cursor) at the first
non-separator rune or at end of input; fail on an invalid encoding. -/
def skipSplitCh (b : List Nat) (splitFn : Nat → Bool) : Nat → Nat → Except SplitErr Nat
  | 0, _ => .error .fuelOut
  | fuel + 1, idx =>
    if idx < b.length then
      if (decodeRune (b.drop idx)).1 = 0xFFFD then
        .error (.invalidSkip (b.getD idx 0) idx (b.take idx))
      else if splitFn (decodeRune (b.drop idx)).1 then
        skipSplitCh b splitFn fuel (idx + (decodeRune (b.drop idx)).2)
      else .ok idx
    else .ok idx

/-- The `findEndQuote` closure of `ShellSplitEx`: advance the cursor until the
quote rune `q` reappears not immediately preceded by a backslash; the cursor
ends just after the closing quote.  Reaching end of input is the
`noEndQuote` (unterminated quote) error; invalid encodings fail. -/
def findEndQuote (b : List Nat) (q : Nat) : Nat → Nat → Nat → Except SplitErr Nat
  | 0, _, _ => .error .fuelOut
  | fuel + 1, prev, idx =>
    if idx < b.length then
      if (decodeRune (b.drop idx)).1 = 0xFFFD then
        .error (.invalidQuote (b.getD idx 0) idx (b.take idx))
      else if (decodeRune (b.drop idx)).1 = q ∧ prev ≠ 0x5C then
        .ok (idx + (decodeRune (b.drop idx)).2)
      else
        findEndQuote b q fuel (decodeRune (b.drop idx)).1 (idx + (decodeRune (b.drop idx)).2)
    else .error (.noEndQuote q)

/-- The `findSplitCh` closure of `ShellSplitEx`: advance the cursor to the next
separator rune (the cursor stops before it), entering a quote sub-scan at
each unescaped `"` or `'`; end of input stops the scan successfully. -/
def findSplitCh (b : List Nat) (splitFn : Nat → Bool) : Nat → Nat → Nat → Except SplitErr Nat
  | 0, _, _ => .error .fuelOut
  | fuel + 1, prev, idx =>
    if idx < b.length then
      if (decodeRune (b.drop idx)).1 = 0xFFFD then
        .error (.invalidFind (b.getD idx 0) idx (b.take idx))
      else if splitFn (decodeRune (b.drop idx)).1 then .ok idx
      else if (decodeRune (b.drop idx)).1 = 0x22 ∨ (decodeRune (b.drop idx)).1 = 0x27 then
        if prev = 0x5C then
          findSplitCh b splitFn fuel (decodeRune (b.drop idx)).1
            (idx + (decodeRune (b.drop idx)).2)
        else
          match findEndQuote b (decodeRune (b.drop idx)).1 fuel 0xFFFD
              (idx + (decodeRune (b.drop idx)).2) with
          | .error e =>
            .error (.quoteWrap (idx + (decodeRune (b.drop idx)).2)
              (b.take (idx + (decodeRune (b.drop idx)).2)) e)
          | .ok j => findSplitCh b splitFn fuel (decodeRune (b.drop idx)).1 j
      else
        findSplitCh b splitFn fuel (decodeRune (b.drop idx)).1
          (idx + (decodeRune (b.drop idx)).2)
    else .ok idx

/-- Go slice `b[i:j]` of a byte string. -/
def sub (b : List Nat) (i j : Nat) : List Nat := (b.drop i).take (j - i)

/-- Emission step of `ShellSplitEx` for a scanned span `[start, stop)`
(lines 103–108 of `main.go`): strip the surrounding bytes when the first and
last bytes are the same quote character, otherwise take the span verbatim. -/
def emitField (b : List Nat) (start stop : Nat) : List Nat :=
  if b.getD start 0 = b.getD (stop - 1) 0 ∧
     (b.getD start 0 = 0x22 ∨ b.getD start 0 = 0x27) then
    sub b (start + 1) (stop - 1)
  else sub b start stop

/-- Main loop of `ShellSplitEx`: alternate `skipSplitCh` and `findSplitCh`,
appending each non-empty span via `emitField`, until the cursor reaches the
end of the input. -/
def splitLoop (b : List Nat) (splitFn : Nat → Bool) :
    Nat → Nat → List (List Nat) → Except SplitErr (List (List Nat))
  | 0, _, _ => .error .fuelOut
  | fuel + 1, idx, ss =>
    if idx < b.length then
      match skipSplitCh b splitFn (fuel + 1) idx with
      | .error e => .error e
      | .ok start =>
        match findSplitCh b splitFn (fuel + 1) 0xFFFD start with
        | .error e => .error e
        | .ok stop =>
          splitLoop b splitFn fuel stop
            (if start < stop then ss ++ [emitField b start stop] else ss)
    else .ok ss

/-- `ShellSplitEx` of `main.go`.  The pair mirrors Go's two return values
`([]string, error)`: the first component is `none` exactly when Go returns a
nil slice, the second is `none` exactly when Go returns a nil error. -/
def ShellSplitEx (s : List Nat) (splitFn : Nat → Bool) :
    Option (List (List Nat)) × Option SplitErr :=
  match splitLoop s splitFn (s.length + 1) 0 [] with
  | .error e => (none, some e)
  | .ok ss => if ss.length = 0 then (none, none) else (some ss, none)

/-- `ShellSplit` of `main.go`: `ShellSplitEx` with `unicode.IsSpace`. -/
def ShellSplit (s : List Nat) : Option (List (List Nat)) × Option SplitErr :=
  ShellSplitEx s isSpace

/-- Errors of `ParseBootConfig`: a line without `=`, or a `ShellSplitEx` error
wrapped with the offending line. -/
inductive CfgErr where
  | missingSep (line : List Nat)
  | valueErr (line : List Nat) (inner : SplitErr)
  deriving DecidableEq, Repr

/-- Separator predicate used by `ParseBootConfig` (and the demo in `main`):
whitespace or comma. -/
def cfgPred (r : Nat) : Bool := isSpace r || r == 0x2C

/-- Go `strings.SplitN(line, "=", 2)`: `none` when the line has no `=`,
otherwise the parts before and after the first `=`. -/
def splitFirstEq : List Nat → Option (List Nat × List Nat)
  | [] => none
  | c :: rest =>
    if c = 0x3D then some ([], rest)
    else
      match splitFirstEq rest with
      | none => none
      | some (k, v) => some (c :: k, v)

/-- Leading-whitespace trimming of Go `strings.TrimSpace`, fuel-based: drop
runes from the front while `unicode.IsSpace` holds (the replacement rune is
not a space, so trimming stops at invalid bytes, as in Go). -/
def trimLeftF : Nat → List Nat → List Nat
  | 0, b => b
  | fuel + 1, b =>
    if b = [] then []
    else
      let d := decodeRune b
      if isSpace d.1 then trimLeftF fuel (b.drop d.2) else b

/-- Trailing-whitespace trimming of Go `strings.TrimSpace`, fuel-based: drop
the trailing run of whitespace runes (rune-aligned from the left, which
agrees with Go's right-to-left decoding on all inputs, since invalid bytes
are never spaces). -/
def trimRightF : Nat → List Nat → List Nat
  | 0, b => b
  | fuel + 1, b =>
    if b = [] then []
    else
      let d := decodeRune b
      let t := trimRightF fuel (b.drop d.2)
      if t = [] ∧ isSpace d.1 then [] else b.take d.2 ++ t

/-- Go `strings.TrimSpace`.  Each fuel step consumes at least one byte, so
`length + 1` fuel is never exhausted. -/
def trimSpace (b : List Nat) : List Nat :=
  trimRightF (b.length + 1) (trimLeftF (b.length + 1) b)

/-- Go `strings.Join` with a separator. -/
def joinSep (sep : List Nat) : List (List Nat) → List Nat
  | [] => []
  | [x] => x
  | x :: xs => x ++ sep ++ joinSep sep xs

/-- Drop a trailing carriage return, as `bufio.ScanLines` does. -/
def dropCR (b : List Nat) : List Nat :=
  if b.getLast? = some 0x0D then b.dropLast else b

/-- The line scanning of `bufio.Scanner` with `ScanLines`, fuel-based: split
on `\n`, dropping a trailing `\r` from each line; a final segment without
`\n` is still a line; no empty final line after a trailing `\n`. -/
def splitLinesF : Nat → List Nat → List (List Nat)
  | 0, _ => []
  | fuel + 1, b =>
    if b = [] then []
    else if 0x0A ∈ b then
      dropCR (b.takeWhile (· ≠ 0x0A)) :: splitLinesF fuel ((b.dropWhile (· ≠ 0x0A)).drop 1)
    else [dropCR b]

/-- Line scanning with its actual fuel (each step consumes at least one byte,
so `length + 1` fuel is never exhausted). -/
def splitLines (b : List Nat) : List (List Nat) := splitLinesF (b.length + 1) b

/-- One iteration of the `ParseBootConfig` loop over the scanned lines,
carrying the accumulated `cmds`; the pair mirrors Go's
`([]string, error)` return values. -/
def bootLoop : List (List Nat) → List (List Nat) →
    Option (List (List Nat)) × Option CfgErr
  | [], cmds => (some cmds, none)
  | line :: rest, cmds =>
    match splitFirstEq line with
    | none => (none, some (.missingSep line))
    | some (k, v) =>
      match ShellSplitEx v cfgPred with
      | (_, some e) => (none, some (.valueErr line e))
      | (fields, none) =>
        bootLoop rest (cmds ++ [trimSpace k ++ 0x3D :: joinSep [0x2C] (fields.getD [])])

/-- `ParseBootConfig` of `main.go`: for each line, split on the first `=`,
trim the key, tokenize the value with the whitespace-or-comma predicate, and
emit `key=value` with the fields re-joined by commas. -/
def ParseBootConfig (input : List Nat) : Option (List (List Nat)) × Option CfgErr :=
  bootLoop (splitLines input) []

/-- All code points of a list are Unicode scalar values distinct from U+FFFD
(the rune Go's decoder also uses to signal errors). -/
def GoodRunes (rs : List Nat) : Prop := ∀ c ∈ rs, validChar c ∧ c ≠ 0xFFFD

/-- No code point of the list is a double or single quote. -/
def NoQuotes (rs : List Nat) : Prop := ∀ c ∈ rs, c ≠ 0x22 ∧ c ≠ 0x27

instance (rs : List Nat) : Decidable (GoodRunes rs) := by
  unfold GoodRunes; exact inferInstance

instance (rs : List Nat) : Decidable (NoQuotes rs) := by
  unfold NoQuotes; exact inferInstance

/-- The maximal runs of consecutive non-separator runes of a rune sequence, in
order of appearance: separators are skipped, and each run is the longest
prefix of non-separators from its starting point.  This is the
specification-side description of tokenization for quote-free input. -/
def tokenRuns (p : Nat → Bool) : List Nat → List (List Nat)
  | [] => []
  | c :: cs =>
    if p c then tokenRuns p cs
    else ((c :: cs).takeWhile (fun x => !p x)) ::
      tokenRuns p ((c :: cs).dropWhile (fun x => !p x))
termination_by rs => rs.length
decreasing_by
  · simp only [List.length_cons]; omega
  · rename_i h
    rw [List.dropWhile_cons_of_pos (by simp [h])]
    have h1 : (List.dropWhile (fun x => !p x) rest).length ≤ rest.length :=
      (List.dropWhile_sublist _).length_le
    simp only [List.length_cons]
    omega

/-- Whether a byte string is a valid UTF-8 encoding, decided as Go's
`utf8.Valid` does: decode rune by rune; a decode that yields the error rune
with size at most one is a malformed sequence (a genuinely encoded U+FFFD
comes back with size 3 and is accepted). -/
def validUtf8F : Nat → List Nat → Bool
  | 0, _ => false
  | fuel + 1, b =>
    if b = [] then true
    else
      let d := decodeRune b
      if d.1 = 0xFFFD ∧ d.2 ≤ 1 then false else validUtf8F fuel (b.drop d.2)

/-- Whether a byte string is a valid UTF-8 encoding (fuel `length + 1` is
never exhausted, as each step consumes at least one byte). -/
def validUtf8 (b : List Nat) : Bool := validUtf8F (b.length + 1) b

/-- Whether a tokenizer error is (or wraps) an invalid-encoding error. -/
def isInvalidEnc : SplitErr → Bool
  | .invalidSkip _ _ _ => true
  | .invalidQuote _ _ _ => true
  | .invalidFind _ _ _ => true
  | .quoteWrap _ _ e => isInvalidEnc e
  | _ => false

/-- Rune-level counterpart of the `findEndQuote` scan: look for the first
occurrence of `q` not immediately preceded (in scan order) by a backslash;
return the consumed runes (closing quote included) and the remainder. -/
def quoteScan (q : Nat) : Nat → List Nat → Option (List Nat × List Nat)
  | _, [] => none
  | prev, c :: cs =>
    if c = q ∧ prev ≠ 0x5C then some ([c], cs)
    else
      match quoteScan q c cs with
      | some (u, v) => some (c :: u, v)
      | none => none

/-- C2: `ShellSplit` applied to `test me "here and there" ok` succeeds and
returns exactly the four fields `test`, `me`, `here and there`, `ok`,
in that order. -/
theorem c2_shellsplit_demo :
    ShellSplit (strBytes "test me \"here and there\" ok") =
      (some [strBytes "test", strBytes "me", strBytes "here and there", strBytes "ok"],
       none) := by
  decide

/-- C10: the result of `ShellSplitEx` can contain empty fields: on `a "" b`
with the whitespace predicate, the adjacent quote pair passes the
`start < stop` check and quote-stripping emits the empty string, so the call
returns `a`, `""`, `b`. -/
theorem c10_empty_quoted_field :
    ShellSplit (strBytes "a \"\" b") = (some [strBytes "a", [], strBytes "b"], none) := by
  decide

/-- C4, counterexample: on `say "hello` the call does fail with an
unterminated-quote error and no fields, but the wrapped offset is 5 — the
byte offset just after the opening quote — while the opening quote itself
sits at offset 4, contradicting the claim that the error references the
offset of the opening quote. -/
theorem c4_counterexample :
    ShellSplit (strBytes "say \"hello") =
      (none, some (.quoteWrap 5 (strBytes "say \"") (.noEndQuote 0x22))) ∧
    (strBytes "say \"hello").getD 4 0 = 0x22 ∧ (5 : Nat) ≠ 4 := by
  decide

/-- C4, amended: `ShellSplit` on `say "hello` returns no fields and an
unterminated-quote (`noEndQuote`) error wrapped with the byte offset
immediately after the opening quote (opening-quote offset 4 plus 1), i.e.
the starting offset of the quoted content. -/
theorem c4_unterminated_quote :
    ShellSplit (strBytes "say \"hello") =
      (none, some (.quoteWrap (4 + 1) (strBytes "say \"") (.noEndQuote 0x22))) := by
  decide

/-- C1, counterexample: the three bytes `EF BF BD` are the valid UTF-8
encoding of the scalar value U+FFFD, which is not a quote character, yet
`ShellSplitEx` with the whitespace predicate fails on them with an
invalid-encoding error instead of succeeding (Go's `DecodeRune` signals
errors with that same rune, and the code only checks the rune value). -/
theorem c1_counterexample :
    validChar 0xFFFD ∧ (0xFFFD : Nat) ≠ 0x22 ∧ (0xFFFD : Nat) ≠ 0x27 ∧
    encodeList [0xFFFD] = [0xEF, 0xBF, 0xBD] ∧
    ShellSplitEx (encodeList [0xFFFD]) isSpace =
      (none, some (.invalidSkip 0xEF 0 [])) := by
  decide

/-- C6, counterexample: for the predicate that treats every rune as a
separator, the valid input consisting of the single separator rune U+FFFD
makes `ShellSplitEx` return an error rather than the `(nil, nil)` sentinel. -/
theorem c6_counterexample :
    validChar 0xFFFD ∧ (fun _ => true : Nat → Bool) 0xFFFD = true ∧
    ShellSplitEx (encodeList [0xFFFD]) (fun _ => true) ≠ (none, none) := by
  decide

/-- C8, counterexample: the input `a="` + newline + `b` contains the line `b`
with no `=`, but the call fails with the wrapped unterminated-quote error of
the earlier line `a="`, not with `MissingSeparator` naming `b`. -/
theorem c8_counterexample :
    (0x3D ∉ strBytes "b") ∧ strBytes "b" ∈ splitLines (strBytes "a=\"\nb") ∧
    ParseBootConfig (strBytes "a=\"\nb") =
      (none, some (.valueErr (strBytes "a=\"")
        (.quoteWrap 1 [0x22] (.noEndQuote 0x22)))) ∧
    CfgErr.valueErr (strBytes "a=\"") (.quoteWrap 1 [0x22] (.noEndQuote 0x22)) ≠
      CfgErr.missingSep (strBytes "b") := by
  decide

/-- C9, counterexample: on `"",a` with the predicate `r = ','` the split
succeeds with fields `""` and `a`, no field contains a separator or quote
rune, yet re-tokenizing the single-space join ` a` yields the single field
` a`, not the original field sequence. -/
theorem c9_counterexample :
    ShellSplitEx (strBytes "\"\",a") (fun r => r == 0x2C) = (some [[], [97]], none) ∧
    (∀ f ∈ [List.nil (α := Nat), [97]], ∀ c ∈ f,
      (fun r : Nat => r == 0x2C) c = false ∧ c ≠ 0x22 ∧ c ≠ 0x27) ∧
    ShellSplitEx (joinSep [0x20] [[], [97]]) (fun r => r == 0x2C) =
      (some [[0x20, 97]], none) ∧
    [[0x20, 97]] ≠ [List.nil (α := Nat), [97]] := by
  decide

theorem decode_size_pos (b : List Nat) (h : b ≠ []) : 1 ≤ (decodeRune b).2 := by
  rcases b with _ | ⟨b0, _ | ⟨b1, _ | ⟨b2, _ | ⟨b3, t⟩⟩⟩⟩
  · exact absurd rfl h
  all_goals
    simp only [decodeRune, decode2, decode3, decode4]
    repeat' split
  all_goals simp

theorem decode_size_le (b : List Nat) : (decodeRune b).2 ≤ b.length := by
  rcases b with _ | ⟨b0, _ | ⟨b1, _ | ⟨b2, _ | ⟨b3, t⟩⟩⟩⟩
  all_goals
    simp only [decodeRune, decode2, decode3, decode4]
    repeat' split
  all_goals simp

theorem encodeChar_ne_nil (c : Nat) : encodeChar c ≠ [] := by
  unfold encodeChar
  repeat' split
  all_goals simp

theorem encodeChar_length_pos (c : Nat) : 1 ≤ (encodeChar c).length :=
  List.length_pos.mpr (encodeChar_ne_nil c)

theorem encodeList_append (xs ys : List Nat) :
    encodeList (xs ++ ys) = encodeList xs ++ encodeList ys := by
  induction xs with
  | nil => simp [encodeList]
  | cons c cs ih => simp [encodeList, ih]

theorem encodeList_nil_iff (rs : List Nat) : encodeList rs = [] ↔ rs = [] := by
  cases rs with
  | nil => simp [encodeList]
  | cons c cs =>
    simp only [encodeList]
    constructor
    · intro h
      exact absurd (List.append_eq_nil.mp h).1 (encodeChar_ne_nil c)
    · intro h
      exact absurd h (by simp)

theorem length_le_encodeList (rs : List Nat) : rs.length ≤ (encodeList rs).length := by
  induction rs with
  | nil => simp [encodeList]
  | cons c cs ih =>
    simp only [encodeList, List.length_append, List.length_cons]
    have := encodeChar_length_pos c
    omega

theorem decode_enc1 (c : Nat) (h : c < 0x80) (t : List Nat) :
    decodeRune (c :: t) = (c, 1) := by
  simp [decodeRune, h]

theorem decode_enc2 (c : Nat) (h1 : 0x80 ≤ c) (h2 : c < 0x800) (t : List Nat) :
    decodeRune ((0xC0 + c / 64) :: (0x80 + c % 64) :: t) = (c, 2) := by
  simp only [decodeRune, decode2]
  split_ifs <;> first
    | exact Prod.ext (by omega) rfl
    | (exfalso; omega)

theorem decode_enc3 (c : Nat) (h1 : 0x800 ≤ c) (h2 : c < 0x10000)
    (hs : c < 0xD800 ∨ 0xE000 ≤ c) (t : List Nat) :
    decodeRune ((0xE0 + c / 4096) :: (0x80 + c / 64 % 64) :: (0x80 + c % 64) :: t) =
      (c, 3) := by
  have e1 : c / 64 / 64 = c / 4096 := by
    rw [Nat.div_div_eq_div_mul]
  simp only [decodeRune, decode3]
  split_ifs <;> first
    | exact Prod.ext (by omega) rfl
    | (exfalso; omega)

theorem decode_enc4 (c : Nat) (h1 : 0x10000 ≤ c) (h2 : c < 0x110000) (t : List Nat) :
    decodeRune ((0xF0 + c / 262144) :: (0x80 + c / 4096 % 64) ::
      (0x80 + c / 64 % 64) :: (0x80 + c % 64) :: t) = (c, 4) := by
  have e1 : c / 64 / 64 = c / 4096 := by
    rw [Nat.div_div_eq_div_mul]
  have e2 : c / 4096 / 64 = c / 262144 := by
    rw [Nat.div_div_eq_div_mul]
  simp only [decodeRune, decode4]
  split_ifs <;> first
    | exact Prod.ext (by omega) rfl
    | (exfalso; omega)

theorem decode_encode (c : Nat) (hc : validChar c) (t : List Nat) :
    decodeRune (encodeChar c ++ t) = (c, (encodeChar c).length) := by
  unfold validChar at hc
  unfold encodeChar
  split_ifs with h1 h2 h3
  · simpa using decode_enc1 c h1 t
  · simpa using decode_enc2 c (by omega) h2 t
  · simpa using decode_enc3 c (by omega) h3 (by omega) t
  · simpa using decode_enc4 c (by omega) (by omega) t

theorem sound2 (b0 b1 : Nat) (h0 : 0xC2 ≤ b0) (h0' : b0 < 0xE0)
    (h1 : 0x80 ≤ b1) (h1' : b1 < 0xC0) :
    validChar ((b0 - 0xC0) * 64 + (b1 - 0x80)) ∧
    encodeChar ((b0 - 0xC0) * 64 + (b1 - 0x80)) = [b0, b1] := by
  constructor
  · unfold validChar; omega
  · unfold encodeChar
    rw [if_neg (by omega), if_pos (by omega)]
    simp only [List.cons.injEq, and_true]
    constructor <;> omega

theorem sound3 (b0 b1 b2 : Nat) (h0 : 0xE0 ≤ b0) (h0' : b0 < 0xF0)
    (hlo : (if b0 = 0xE0 then 0xA0 else 0x80) ≤ b1)
    (hhi : b1 ≤ if b0 = 0xED then 0x9F else 0xBF)
    (h2 : 0x80 ≤ b2) (h2' : b2 < 0xC0) :
    validChar ((b0 - 0xE0) * 4096 + (b1 - 0x80) * 64 + (b2 - 0x80)) ∧
    encodeChar ((b0 - 0xE0) * 4096 + (b1 - 0x80) * 64 + (b2 - 0x80)) = [b0, b1, b2] := by
  have hlo' : 0x80 ≤ b1 := by split_ifs at hlo <;> omega
  have hhi' : b1 < 0xC0 := by split_ifs at hhi <;> omega
  have hmin : 0x800 ≤ (b0 - 0xE0) * 4096 + (b1 - 0x80) * 64 + (b2 - 0x80) := by
    by_cases he : b0 = 0xE0
    · rw [if_pos he] at hlo; omega
    · omega
  have hsur : (b0 - 0xE0) * 4096 + (b1 - 0x80) * 64 + (b2 - 0x80) < 0xD800 ∨
      0xE000 ≤ (b0 - 0xE0) * 4096 + (b1 - 0x80) * 64 + (b2 - 0x80) := by
    by_cases he : b0 = 0xED
    · rw [if_pos he] at hhi; omega
    · omega
  constructor
  · unfold validChar; omega
  · unfold encodeChar
    rw [if_neg (by omega), if_neg (by omega), if_pos (by omega)]
    have e1 : ((b0 - 0xE0) * 4096 + (b1 - 0x80) * 64 + (b2 - 0x80)) / 64 / 64 =
        ((b0 - 0xE0) * 4096 + (b1 - 0x80) * 64 + (b2 - 0x80)) / 4096 := by
      rw [Nat.div_div_eq_div_mul]
    simp only [List.cons.injEq, and_true]
    refine ⟨by omega, by omega, by omega⟩

theorem sound4 (b0 b1 b2 b3 : Nat) (h0 : 0xF0 ≤ b0) (h0' : b0 < 0xF5)
    (hlo : (if b0 = 0xF0 then 0x90 else 0x80) ≤ b1)
    (hhi : b1 ≤ if b0 = 0xF4 then 0x8F else 0xBF)
    (h2 : 0x80 ≤ b2) (h2' : b2 < 0xC0) (h3 : 0x80 ≤ b3) (h3' : b3 < 0xC0) :
    validChar ((b0 - 0xF0) * 262144 + (b1 - 0x80) * 4096 + (b2 - 0x80) * 64 + (b3 - 0x80)) ∧
    encodeChar ((b0 - 0xF0) * 262144 + (b1 - 0x80) * 4096 + (b2 - 0x80) * 64 + (b3 - 0x80)) =
      [b0, b1, b2, b3] := by
  have hlo' : 0x80 ≤ b1 := by split_ifs at hlo <;> omega
  have hhi' : b1 < 0xC0 := by split_ifs at hhi <;> omega
  have hmin : 0x10000 ≤ (b0 - 0xF0) * 262144 + (b1 - 0x80) * 4096 + (b2 - 0x80) * 64 + (b3 - 0x80) := by
    by_cases he : b0 = 0xF0
    · rw [if_pos he] at hlo; omega
    · omega
  have hmax : (b0 - 0xF0) * 262144 + (b1 - 0x80) * 4096 + (b2 - 0x80) * 64 + (b3 - 0x80) < 0x110000 := by
    by_cases he : b0 = 0xF4
    · rw [if_pos he] at hhi; omega
    · omega
  constructor
  · unfold validChar; omega
  · unfold encodeChar
    rw [if_neg (by omega), if_neg (by omega), if_neg (by omega)]
    have e1 : ((b0 - 0xF0) * 262144 + (b1 - 0x80) * 4096 + (b2 - 0x80) * 64 + (b3 - 0x80)) / 64 / 64 =
        ((b0 - 0xF0) * 262144 + (b1 - 0x80) * 4096 + (b2 - 0x80) * 64 + (b3 - 0x80)) / 4096 := by
      rw [Nat.div_div_eq_div_mul]
    have e2 : ((b0 - 0xF0) * 262144 + (b1 - 0x80) * 4096 + (b2 - 0x80) * 64 + (b3 - 0x80)) / 4096 / 64 =
        ((b0 - 0xF0) * 262144 + (b1 - 0x80) * 4096 + (b2 - 0x80) * 64 + (b3 - 0x80)) / 262144 := by
      rw [Nat.div_div_eq_div_mul]
    simp only [List.cons.injEq, and_true]
    refine ⟨by omega, by omega, by omega, by omega⟩

theorem decode_sound (b : List Nat) (hr : (decodeRune b).1 ≠ 0xFFFD) :
    validChar (decodeRune b).1 ∧
    b.take (decodeRune b).2 = encodeChar (decodeRune b).1 ∧
    (encodeChar (decodeRune b).1).length = (decodeRune b).2 := by
  rcases b with _ | ⟨b0, rest⟩
  · simp [decodeRune] at hr
  by_cases h1 : b0 < 0x80
  · have hd : decodeRune (b0 :: rest) = (b0, 1) := by simp [decodeRune, h1]
    rw [hd]
    exact ⟨by unfold validChar; omega, by simp [encodeChar, h1], by simp [encodeChar, h1]⟩
  by_cases h2 : b0 < 0xC2
  · exfalso; apply hr; simp [decodeRune, h1, h2]
  by_cases h3 : b0 < 0xE0
  · rcases rest with _ | ⟨b1, rest'⟩
    · exfalso; apply hr; simp [decodeRune, decode2, h1, h2, h3]
    by_cases hacc : 0x80 ≤ b1 ∧ b1 < 0xC0
    · have hd : decodeRune (b0 :: b1 :: rest') = ((b0 - 0xC0) * 64 + (b1 - 0x80), 2) := by
        simp [decodeRune, decode2, h1, h2, h3, hacc.1, hacc.2]
      rw [hd]
      obtain ⟨hv, he⟩ := sound2 b0 b1 (by omega) h3 hacc.1 hacc.2
      exact ⟨hv, by simp [he], by simp [he]⟩
    · exfalso; apply hr; simp [decodeRune, decode2, h1, h2, h3, hacc]
  by_cases h4 : b0 < 0xF0
  · rcases rest with _ | ⟨b1, _ | ⟨b2, rest'⟩⟩
    · exfalso; apply hr; simp [decodeRune, decode3, h1, h2, h3, h4]
    · exfalso; apply hr; simp [decodeRune, decode3, h1, h2, h3, h4]
    by_cases hacc : ((if b0 = 0xE0 then 0xA0 else 0x80) ≤ b1 ∧
        b1 ≤ (if b0 = 0xED then 0x9F else 0xBF)) ∧ (0x80 ≤ b2 ∧ b2 < 0xC0)
    · have hd : decodeRune (b0 :: b1 :: b2 :: rest') =
          ((b0 - 0xE0) * 4096 + (b1 - 0x80) * 64 + (b2 - 0x80), 3) := by
        simp only [decodeRune, decode3]
        rw [if_neg h1, if_neg h2, if_neg h3, if_pos h4, if_pos hacc]
      rw [hd]
      obtain ⟨hv, he⟩ := sound3 b0 b1 b2 (by omega) h4 hacc.1.1 hacc.1.2 hacc.2.1 hacc.2.2
      exact ⟨hv, by simp [he], by simp [he]⟩
    · exfalso; apply hr
      simp only [decodeRune, decode3]
      rw [if_neg h1, if_neg h2, if_neg h3, if_pos h4, if_neg hacc]
  by_cases h5 : b0 < 0xF5
  · rcases rest with _ | ⟨b1, _ | ⟨b2, _ | ⟨b3, rest'⟩⟩⟩
    · exfalso; apply hr; simp [decodeRune, decode4, h1, h2, h3, h4, h5]
    · exfalso; apply hr; simp [decodeRune, decode4, h1, h2, h3, h4, h5]
    · exfalso; apply hr; simp [decodeRune, decode4, h1, h2, h3, h4, h5]
    by_cases hacc : ((if b0 = 0xF0 then 0x90 else 0x80) ≤ b1 ∧
        b1 ≤ (if b0 = 0xF4 then 0x8F else 0xBF)) ∧
        (0x80 ≤ b2 ∧ b2 < 0xC0) ∧ (0x80 ≤ b3 ∧ b3 < 0xC0)
    · have hd : decodeRune (b0 :: b1 :: b2 :: b3 :: rest') =
          ((b0 - 0xF0) * 262144 + (b1 - 0x80) * 4096 + (b2 - 0x80) * 64 + (b3 - 0x80), 4) := by
        simp only [decodeRune, decode4]
        rw [if_neg h1, if_neg h2, if_neg h3, if_neg h4, if_pos h5, if_pos hacc]
      rw [hd]
      obtain ⟨hv, he⟩ := sound4 b0 b1 b2 b3 (by omega) h5 hacc.1.1 hacc.1.2
        hacc.2.1.1 hacc.2.1.2 hacc.2.2.1 hacc.2.2.2
      exact ⟨hv, by simp [he], by simp [he]⟩
    · exfalso; apply hr
      simp only [decodeRune, decode4]
      rw [if_neg h1, if_neg h2, if_neg h3, if_neg h4, if_pos h5, if_neg hacc]
  · exfalso; apply hr; simp [decodeRune, h1, h2, h3, h4, h5]

theorem getD_drop (b : List Nat) (i : Nat) : b.getD i 0 = (b.drop i).headD 0 := by
  induction b generalizing i with
  | nil => simp
  | cons a l ih =>
    cases i with
    | zero => simp
    | succ j => simpa using ih j

theorem drop_split (b u v : List Nat) (idx : Nat) (h : b.drop idx = u ++ v) :
    b.drop (idx + u.length) = v := by
  have h2 : (b.drop idx).drop u.length = b.drop (idx + u.length) :=
    List.drop_drop u.length idx b
  rw [← h2, h, List.drop_left]

theorem drop_lt_length (b : List Nat) (idx : Nat) (h : b.drop idx ≠ []) :
    idx < b.length := by
  by_contra hc
  exact h (List.drop_eq_nil_of_le (by omega))

theorem drop_eq_nil_ge (b : List Nat) (idx : Nat) (h : b.drop idx = []) :
    ¬ idx < b.length := by
  have := congrArg List.length h
  simp only [List.length_drop, List.length_nil] at this
  omega

theorem skip_end (b : List Nat) (p : Nat → Bool) (f idx : Nat) (hge : ¬ idx < b.length) :
    skipSplitCh b p (f + 1) idx = .ok idx := by
  simp only [skipSplitCh]
  rw [if_neg hge]

theorem skip_step_err (b : List Nat) (p : Nat → Bool) (f idx : Nat)
    (hlt : idx < b.length) (hd : (decodeRune (b.drop idx)).1 = 0xFFFD) :
    skipSplitCh b p (f + 1) idx =
      .error (.invalidSkip (b.getD idx 0) idx (b.take idx)) := by
  simp only [skipSplitCh]
  rw [if_pos hlt, if_pos hd]

theorem skip_step (b : List Nat) (p : Nat → Bool) (f idx r s : Nat)
    (hlt : idx < b.length) (hd : decodeRune (b.drop idx) = (r, s)) (hr : r ≠ 0xFFFD) :
    skipSplitCh b p (f + 1) idx =
      if p r then skipSplitCh b p f (idx + s) else .ok idx := by
  simp only [skipSplitCh]
  rw [if_pos hlt, hd]
  simp [hr]

theorem feq_end (b : List Nat) (q f prev idx : Nat) (hge : ¬ idx < b.length) :
    findEndQuote b q (f + 1) prev idx = .error (.noEndQuote q) := by
  simp only [findEndQuote]
  rw [if_neg hge]

theorem feq_step_err (b : List Nat) (q f prev idx : Nat)
    (hlt : idx < b.length) (hd : (decodeRune (b.drop idx)).1 = 0xFFFD) :
    findEndQuote b q (f + 1) prev idx =
      .error (.invalidQuote (b.getD idx 0) idx (b.take idx)) := by
  simp only [findEndQuote]
  rw [if_pos hlt, if_pos hd]

theorem feq_step (b : List Nat) (q f prev idx r s : Nat)
    (hlt : idx < b.length) (hd : decodeRune (b.drop idx) = (r, s)) (hr : r ≠ 0xFFFD) :
    findEndQuote b q (f + 1) prev idx =
      if r = q ∧ prev ≠ 0x5C then .ok (idx + s)
      else findEndQuote b q f r (idx + s) := by
  simp only [findEndQuote]
  rw [if_pos hlt, hd]
  simp [hr]

theorem find_end (b : List Nat) (p : Nat → Bool) (f prev idx : Nat)
    (hge : ¬ idx < b.length) : findSplitCh b p (f + 1) prev idx = .ok idx := by
  simp only [findSplitCh]
  rw [if_neg hge]

theorem find_step_err (b : List Nat) (p : Nat → Bool) (f prev idx : Nat)
    (hlt : idx < b.length) (hd : (decodeRune (b.drop idx)).1 = 0xFFFD) :
    findSplitCh b p (f + 1) prev idx =
      .error (.invalidFind (b.getD idx 0) idx (b.take idx)) := by
  simp only [findSplitCh]
  rw [if_pos hlt, if_pos hd]

theorem find_step (b : List Nat) (p : Nat → Bool) (f prev idx r s : Nat)
    (hlt : idx < b.length) (hd : decodeRune (b.drop idx) = (r, s)) (hr : r ≠ 0xFFFD) :
    findSplitCh b p (f + 1) prev idx =
      if p r then .ok idx
      else if r = 0x22 ∨ r = 0x27 then
        if prev = 0x5C then findSplitCh b p f r (idx + s)
        else
          match findEndQuote b r f 0xFFFD (idx + s) with
          | .error e => .error (.quoteWrap (idx + s) (b.take (idx + s)) e)
          | .ok j => findSplitCh b p f r j
      else findSplitCh b p f r (idx + s) := by
  simp only [findSplitCh]
  rw [if_pos hlt, hd]
  simp [hr]

theorem loop_end (b : List Nat) (p : Nat → Bool) (f idx : Nat) (ss : List (List Nat))
    (hge : ¬ idx < b.length) : splitLoop b p (f + 1) idx ss = .ok ss := by
  simp only [splitLoop]
  rw [if_neg hge]

theorem loop_step_ok (b : List Nat) (p : Nat → Bool) (f idx : Nat) (ss : List (List Nat))
    (start stop : Nat) (hlt : idx < b.length)
    (hskip : skipSplitCh b p (f + 1) idx = .ok start)
    (hfind : findSplitCh b p (f + 1) 0xFFFD start = .ok stop) :
    splitLoop b p (f + 1) idx ss =
      splitLoop b p f stop
        (if start < stop then ss ++ [emitField b start stop] else ss) := by
  simp only [splitLoop]
  rw [if_pos hlt, hskip]
  dsimp only
  rw [hfind]

theorem loop_step_skiperr (b : List Nat) (p : Nat → Bool) (f idx : Nat)
    (ss : List (List Nat)) (e : SplitErr) (hlt : idx < b.length)
    (hskip : skipSplitCh b p (f + 1) idx = .error e) :
    splitLoop b p (f + 1) idx ss = .error e := by
  simp only [splitLoop]
  rw [if_pos hlt, hskip]

theorem loop_step_finderr (b : List Nat) (p : Nat → Bool) (f idx : Nat)
    (ss : List (List Nat)) (start : Nat) (e : SplitErr) (hlt : idx < b.length)
    (hskip : skipSplitCh b p (f + 1) idx = .ok start)
    (hfind : findSplitCh b p (f + 1) 0xFFFD start = .error e) :
    splitLoop b p (f + 1) idx ss = .error e := by
  simp only [splitLoop]
  rw [if_pos hlt, hskip]
  dsimp only
  rw [hfind]

theorem goodRunes_head {c : Nat} {cs : List Nat} (hg : GoodRunes (c :: cs)) :
    validChar c ∧ c ≠ 0xFFFD := hg c (by simp)

theorem goodRunes_tail {c : Nat} {cs : List Nat} (hg : GoodRunes (c :: cs)) :
    GoodRunes cs := fun x hx => hg x (by simp [hx])

theorem noQuotes_head {c : Nat} {cs : List Nat} (hq : NoQuotes (c :: cs)) :
    c ≠ 0x22 ∧ c ≠ 0x27 := hq c (by simp)

theorem noQuotes_tail {c : Nat} {cs : List Nat} (hq : NoQuotes (c :: cs)) :
    NoQuotes cs := fun x hx => hq x (by simp [hx])

theorem enc_pos_facts (b : List Nat) (c : Nat) (cs rest : List Nat) (idx : Nat)
    (hdrop : b.drop idx = encodeList (c :: cs) ++ rest) (hc : validChar c) :
    idx < b.length ∧
    decodeRune (b.drop idx) = (c, (encodeChar c).length) ∧
    b.drop (idx + (encodeChar c).length) = encodeList cs ++ rest := by
  have hdrop' : b.drop idx = encodeChar c ++ (encodeList cs ++ rest) := by
    rw [hdrop]
    simp [encodeList, List.append_assoc]
  refine ⟨?_, ?_, ?_⟩
  · apply drop_lt_length
    rw [hdrop']
    intro hcon
    exact encodeChar_ne_nil c (List.append_eq_nil.mp hcon).1
  · rw [hdrop']
    exact decode_encode c hc _
  · exact drop_split b (encodeChar c) _ idx hdrop'

theorem skip_spec (b : List Nat) (p : Nat → Bool) :
    ∀ rs rest idx fuel, b.drop idx = encodeList rs ++ rest → GoodRunes rs →
      rs.length < fuel →
      ((rs.takeWhile p ≠ rs ∨ rest = []) →
        skipSplitCh b p fuel idx = .ok (idx + (encodeList (rs.takeWhile p)).length)) ∧
      ((decodeRune rest).1 = 0xFFFD → rest ≠ [] → rs.takeWhile p = rs →
        ∃ e, skipSplitCh b p fuel idx = .error e ∧ isInvalidEnc e = true) := by
  intro rs
  induction rs with
  | nil =>
    intro rest idx fuel hdrop hg hfuel
    obtain ⟨f, rfl⟩ : ∃ f, fuel = f + 1 := ⟨fuel - 1, by omega⟩
    simp only [encodeList, List.nil_append] at hdrop
    constructor
    · intro hc
      have hrest : rest = [] := by
        rcases hc with hc | hc
        · simp at hc
        · exact hc
      subst hrest
      rw [skip_end b p f idx (drop_eq_nil_ge b idx hdrop)]
      simp [encodeList]
    · intro hdec hne _
      have hlt : idx < b.length := drop_lt_length b idx (by rw [hdrop]; exact hne)
      exact ⟨_, skip_step_err b p f idx hlt (by rw [hdrop]; exact hdec), rfl⟩
  | cons c cs ih =>
    intro rest idx fuel hdrop hg hfuel
    obtain ⟨f, rfl⟩ : ∃ f, fuel = f + 1 := ⟨fuel - 1, by omega⟩
    obtain ⟨hlt, hdec, hnext⟩ := enc_pos_facts b c cs rest idx hdrop (goodRunes_head hg).1
    have hstep := skip_step b p f idx c (encodeChar c).length hlt hdec (goodRunes_head hg).2
    by_cases hp : p c
    · have ihh := ih rest (idx + (encodeChar c).length) f hnext (goodRunes_tail hg)
        (by simp only [List.length_cons] at hfuel; omega)
      constructor
      · intro hc
        have hc' : cs.takeWhile p ≠ cs ∨ rest = [] := by
          rcases hc with hc | hc
          · left
            intro he
            exact hc (by rw [List.takeWhile_cons_of_pos hp, he])
          · right; exact hc
        rw [hstep, if_pos hp, ihh.1 hc', List.takeWhile_cons_of_pos hp]
        simp only [encodeList, List.length_append]
        exact congrArg _ (by omega)
      · intro hdec' hne htw
        have htw' : cs.takeWhile p = cs := by
          rw [List.takeWhile_cons_of_pos hp] at htw
          simpa using htw
        obtain ⟨e, he, hinv⟩ := ihh.2 hdec' hne htw'
        exact ⟨e, by rw [hstep, if_pos hp]; exact he, hinv⟩
    · constructor
      · intro _
        rw [hstep, if_neg hp, List.takeWhile_cons_of_neg hp]
        simp [encodeList]
      · intro _ _ htw
        rw [List.takeWhile_cons_of_neg hp] at htw
        exact absurd htw (by simp)

theorem goodRunes_sub {rs rt : List Nat} (h : List.Sublist rt rs) (hg : GoodRunes rs) :
    GoodRunes rt := fun x hx => hg x (h.subset hx)

theorem noQuotes_sub {rs rt : List Nat} (h : List.Sublist rt rs) (hq : NoQuotes rs) :
    NoQuotes rt := fun x hx => hq x (h.subset hx)

theorem find_spec_noquote (b : List Nat) (p : Nat → Bool) :
    ∀ rs prev idx fuel, b.drop idx = encodeList rs → GoodRunes rs → NoQuotes rs →
      rs.length < fuel →
      findSplitCh b p fuel prev idx =
        .ok (idx + (encodeList (rs.takeWhile (fun c => !p c))).length) := by
  intro rs
  induction rs with
  | nil =>
    intro prev idx fuel hdrop hg hq hfuel
    obtain ⟨f, rfl⟩ : ∃ f, fuel = f + 1 := ⟨fuel - 1, by omega⟩
    simp only [encodeList] at hdrop
    rw [find_end b p f prev idx (drop_eq_nil_ge b idx hdrop)]
    simp [encodeList]
  | cons c cs ih =>
    intro prev idx fuel hdrop hg hq hfuel
    obtain ⟨f, rfl⟩ : ∃ f, fuel = f + 1 := ⟨fuel - 1, by omega⟩
    obtain ⟨hlt, hdec, hnext⟩ := enc_pos_facts b c cs [] idx (by simpa using hdrop) (goodRunes_head hg).1
    have hstep := find_step b p f prev idx c (encodeChar c).length hlt hdec (goodRunes_head hg).2
    by_cases hp : p c
    · rw [hstep, if_pos hp, List.takeWhile_cons_of_neg (by simp [hp])]
      simp [encodeList]
    · rw [hstep, if_neg hp, if_neg (by push_neg; exact (noQuotes_head hq))]
      rw [ih c (idx + (encodeChar c).length) f (by simpa using hnext) (goodRunes_tail hg) (noQuotes_tail hq)
        (by simp only [List.length_cons] at hfuel; omega)]
      rw [List.takeWhile_cons_of_pos (by simp [hp])]
      simp only [encodeList, List.length_append]
      exact congrArg _ (by omega)

theorem encodeChar_head_ne (c : Nat) (t : List Nat) (h22 : c ≠ 0x22) (h27 : c ≠ 0x27) :
    (encodeChar c ++ t).headD 0 ≠ 0x22 ∧ (encodeChar c ++ t).headD 0 ≠ 0x27 := by
  unfold encodeChar
  split_ifs <;> (simp only [List.cons_append, List.headD_cons]; constructor <;> omega)

theorem tokenRuns_sep_cons (p : Nat → Bool) (c : Nat) (cs : List Nat) (hp : p c) :
    tokenRuns p (c :: cs) = tokenRuns p cs := by
  rw [tokenRuns]
  simp [hp]

theorem tokenRuns_nonsep_cons (p : Nat → Bool) (c : Nat) (cs : List Nat) (hp : ¬ p c) :
    tokenRuns p (c :: cs) =
      ((c :: cs).takeWhile (fun x => !p x)) ::
        tokenRuns p ((c :: cs).dropWhile (fun x => !p x)) := by
  rw [tokenRuns]
  simp [hp]

theorem tokenRuns_sep_skip (p : Nat → Bool) :
    ∀ s t : List Nat, (∀ c ∈ s, p c) → tokenRuns p (s ++ t) = tokenRuns p t := by
  intro s
  induction s with
  | nil => simp
  | cons c cs ih =>
    intro t hs
    rw [List.cons_append, tokenRuns_sep_cons p c _ (hs c (by simp))]
    exact ih t (fun x hx => hs x (by simp [hx]))

theorem tokenRuns_all_sep (p : Nat → Bool) (rs : List Nat) (h : ∀ c ∈ rs, p c) :
    tokenRuns p rs = [] := by
  have h2 := tokenRuns_sep_skip p rs [] h
  rw [List.append_nil] at h2
  rw [h2, tokenRuns]

theorem loop_spec_noquote (b : List Nat) (p : Nat → Bool) :
    ∀ n rs idx ss fuel, rs.length ≤ n → b.drop idx = encodeList rs → GoodRunes rs →
      NoQuotes rs → rs.length < fuel →
      splitLoop b p fuel idx ss = .ok (ss ++ (tokenRuns p rs).map encodeList) := by
  intro n
  induction n with
  | zero =>
    intro rs idx ss fuel hn hdrop hg hq hfuel
    have hrs : rs = [] := List.length_eq_zero.mp (by omega)
    subst hrs
    obtain ⟨f, rfl⟩ : ∃ f, fuel = f + 1 := ⟨fuel - 1, by omega⟩
    simp only [encodeList] at hdrop
    rw [loop_end b p f idx ss (drop_eq_nil_ge b idx hdrop), tokenRuns]
    simp
  | succ n ihn =>
    intro rs idx ss fuel hn hdrop hg hq hfuel
    cases rs with
    | nil =>
      obtain ⟨f, rfl⟩ : ∃ f, fuel = f + 1 := ⟨fuel - 1, by omega⟩
      simp only [encodeList] at hdrop
      rw [loop_end b p f idx ss (drop_eq_nil_ge b idx hdrop), tokenRuns]
      simp
    | cons c0 cs0 =>
      obtain ⟨f, rfl⟩ : ∃ f, fuel = f + 1 := ⟨fuel - 1, by omega⟩
      have hf1 : 1 ≤ f := by
        simp only [List.length_cons] at hfuel
        omega
      have hlt : idx < b.length :=
        (enc_pos_facts b c0 cs0 [] idx (by simpa using hdrop) (goodRunes_head hg).1).1
      have hskip := (skip_spec b p (c0 :: cs0) [] idx (f + 1)
        (by simpa using hdrop) hg hfuel).1 (Or.inr rfl)
      have hsplit1 : b.drop idx = encodeList ((c0 :: cs0).takeWhile p) ++
          encodeList ((c0 :: cs0).dropWhile p) := by
        rw [← encodeList_append, List.takeWhile_append_dropWhile]
        exact hdrop
      have hdrop2 : b.drop (idx + (encodeList ((c0 :: cs0).takeWhile p)).length) =
          encodeList ((c0 :: cs0).dropWhile p) :=
        drop_split b _ _ idx hsplit1
      have hg2 : GoodRunes ((c0 :: cs0).dropWhile p) := goodRunes_sub (List.dropWhile_sublist _) hg
      have hq2 : NoQuotes ((c0 :: cs0).dropWhile p) := noQuotes_sub (List.dropWhile_sublist _) hq
      have hlen2 : ((c0 :: cs0).dropWhile p).length ≤ (c0 :: cs0).length :=
        (List.dropWhile_sublist _).length_le
      have hfind := find_spec_noquote b p ((c0 :: cs0).dropWhile p) 0xFFFD
        (idx + (encodeList ((c0 :: cs0).takeWhile p)).length) (f + 1) hdrop2 hg2 hq2
        (by simp only [List.length_cons] at hfuel hlen2 ⊢; omega)
      rw [loop_step_ok b p f idx ss _ _ hlt hskip hfind]
      have hsep1 : ∀ c ∈ (c0 :: cs0).takeWhile p, p c := fun c hc =>
        List.mem_takeWhile_imp hc
      have hlensum : ((c0 :: cs0).takeWhile p).length +
          ((c0 :: cs0).dropWhile p).length = (c0 :: cs0).length := by
        have h2 := congrArg List.length (List.takeWhile_append_dropWhile (p := p)
          (l := c0 :: cs0))
        rw [List.length_append] at h2
        exact h2
      rcases hd2 : (c0 :: cs0).dropWhile p with _ | ⟨c1, cs1⟩
      · simp only [List.takeWhile_nil, encodeList, List.length_nil, Nat.add_zero,
          lt_irrefl, if_false]
        obtain ⟨f', rfl⟩ : ∃ f', f = f' + 1 := ⟨f - 1, by omega⟩
        rw [hd2] at hdrop2
        simp only [encodeList] at hdrop2
        rw [loop_end b p f' _ ss (drop_eq_nil_ge b _ hdrop2)]
        rw [tokenRuns_all_sep p _ (List.dropWhile_eq_nil_iff.mp hd2)]
        simp
      · rw [hd2] at hdrop2 hg2 hq2
        have hp1 : ¬ p c1 := by
          have hne : (c0 :: cs0).dropWhile p ≠ [] := by simp [hd2]
          have hh := List.head_dropWhile_not p (c0 :: cs0) hne
          have hhead : ((c0 :: cs0).dropWhile p).head hne = c1 := by
            simp [hd2]
          rw [hhead] at hh
          simp [hh]
        have htw1 : (c1 :: cs1).takeWhile (fun x => !p x) =
            c1 :: cs1.takeWhile (fun x => !p x) :=
          List.takeWhile_cons_of_pos (by simp [hp1])
        have hglen : 1 ≤ (encodeList ((c1 :: cs1).takeWhile (fun x => !p x))).length := by
          rw [htw1]
          simp only [encodeList, List.length_append]
          have := encodeChar_length_pos c1
          omega
        rw [if_pos (by omega)]
        have hsplit2 : b.drop (idx + (encodeList ((c0 :: cs0).takeWhile p)).length) =
            encodeList ((c1 :: cs1).takeWhile (fun x => !p x)) ++
            encodeList ((c1 :: cs1).dropWhile (fun x => !p x)) := by
          rw [← encodeList_append, List.takeWhile_append_dropWhile]
          exact hdrop2
        have hemit : emitField b (idx + (encodeList ((c0 :: cs0).takeWhile p)).length)
            (idx + (encodeList ((c0 :: cs0).takeWhile p)).length +
              (encodeList ((c1 :: cs1).takeWhile (fun x => !p x))).length) =
            encodeList ((c1 :: cs1).takeWhile (fun x => !p x)) := by
          have hhead : b.getD (idx + (encodeList ((c0 :: cs0).takeWhile p)).length) 0 =
              (encodeChar c1 ++ encodeList cs1).headD 0 := by
            rw [getD_drop, hdrop2]
            simp [encodeList]
          have hnq := encodeChar_head_ne c1 (encodeList cs1) (noQuotes_head hq2).1 (noQuotes_head hq2).2
          unfold emitField
          rw [if_neg (by
            rw [hhead]
            rintro ⟨-, h34 | h39⟩
            · exact hnq.1 h34
            · exact hnq.2 h39)]
          unfold sub
          have hstop : idx + (encodeList ((c0 :: cs0).takeWhile p)).length +
              (encodeList ((c1 :: cs1).takeWhile (fun x => !p x))).length -
              (idx + (encodeList ((c0 :: cs0).takeWhile p)).length) =
              (encodeList ((c1 :: cs1).takeWhile (fun x => !p x))).length := by omega
          rw [hstop, hsplit2, List.take_left]
        rw [hemit]
        have hdrop3 : b.drop (idx + (encodeList ((c0 :: cs0).takeWhile p)).length +
            (encodeList ((c1 :: cs1).takeWhile (fun x => !p x))).length) =
            encodeList ((c1 :: cs1).dropWhile (fun x => !p x)) := by
          have := drop_split b (encodeList ((c1 :: cs1).takeWhile (fun x => !p x)))
            (encodeList ((c1 :: cs1).dropWhile (fun x => !p x)))
            (idx + (encodeList ((c0 :: cs0).takeWhile p)).length) hsplit2
          simpa [Nat.add_assoc] using this
        have hglen2 : ((c1 :: cs1).takeWhile (fun x => !p x)).length +
            ((c1 :: cs1).dropWhile (fun x => !p x)).length = (c1 :: cs1).length := by
          have h2 := congrArg List.length (List.takeWhile_append_dropWhile
            (p := fun x => !p x) (l := c1 :: cs1))
          rw [List.length_append] at h2
          exact h2
        have htwlen : 1 ≤ ((c1 :: cs1).takeWhile (fun x => !p x)).length := by
          rw [htw1]
          simp
        have hrec := ihn ((c1 :: cs1).dropWhile (fun x => !p x))
          (idx + (encodeList ((c0 :: cs0).takeWhile p)).length +
            (encodeList ((c1 :: cs1).takeWhile (fun x => !p x))).length)
          (ss ++ [encodeList ((c1 :: cs1).takeWhile (fun x => !p x))]) f
          (by
            rw [hd2] at hlensum
            simp only [List.length_cons] at hn hlensum hglen2 ⊢
            omega)
          hdrop3 (goodRunes_sub (List.dropWhile_sublist _) hg2) (noQuotes_sub (List.dropWhile_sublist _) hq2)
          (by
            rw [hd2] at hlensum
            simp only [List.length_cons] at hfuel hlensum hglen2 ⊢
            omega)
        rw [hrec]
        have hruns : tokenRuns p (c0 :: cs0) =
            ((c1 :: cs1).takeWhile (fun x => !p x)) ::
              tokenRuns p ((c1 :: cs1).dropWhile (fun x => !p x)) := by
          conv =>
            left
            rw [← List.takeWhile_append_dropWhile (p := p) (l := c0 :: cs0)]
          rw [tokenRuns_sep_skip p _ _ hsep1, hd2, tokenRuns_nonsep_cons p c1 cs1 hp1]
        rw [hruns]
        simp [List.append_assoc]

theorem tokenRuns_props (p : Nat → Bool) :
    ∀ n rs, rs.length ≤ n → ∀ g ∈ tokenRuns p rs, g ≠ [] ∧ ∀ c ∈ g, p c = false := by
  intro n
  induction n with
  | zero =>
    intro rs hn
    have hrs : rs = [] := List.length_eq_zero.mp (by omega)
    subst hrs
    rw [tokenRuns]
    simp
  | succ n ihn =>
    intro rs hn
    cases rs with
    | nil =>
      rw [tokenRuns]
      simp
    | cons c cs =>
      by_cases hp : p c
      · rw [tokenRuns_sep_cons p c cs hp]
        exact ihn cs (by simp only [List.length_cons] at hn; omega)
      · rw [tokenRuns_nonsep_cons p c cs hp]
        intro g hgmem
        rcases List.mem_cons.mp hgmem with hgeq | hgtail
        · subst hgeq
          constructor
          · rw [List.takeWhile_cons_of_pos (by simp [hp])]
            simp
          · intro x hx
            have hx' := List.mem_takeWhile_imp hx
            simpa using hx'
        · have hlen : ((c :: cs).dropWhile (fun x => !p x)).length ≤ n := by
            rw [List.dropWhile_cons_of_pos (p := fun x => !p x) (a := c) (by simp [hp])]
            have hsub : (cs.dropWhile (fun x => !p x)).length ≤ cs.length :=
              (List.dropWhile_sublist _).length_le
            simp only [List.length_cons] at hn
            omega
          exact ihn _ hlen g hgtail

/-- C1, amended: for every input that is the UTF-8 encoding of a sequence of
Unicode scalar values containing no quote character and no U+FFFD, and every
separator predicate, `ShellSplitEx` succeeds (no error, first return value
holding the fields) and returns exactly the encodings of the maximal runs of
consecutive non-separator runes, in order, each run non-empty and free of
separator runes. -/
theorem c1_no_quote_tokenization (rs : List Nat) (p : Nat → Bool)
    (hg : GoodRunes rs) (hq : NoQuotes rs) :
    (ShellSplitEx (encodeList rs) p).2 = none ∧
    (ShellSplitEx (encodeList rs) p).1.getD [] = (tokenRuns p rs).map encodeList ∧
    (∀ g ∈ tokenRuns p rs, g ≠ [] ∧ ∀ c ∈ g, p c = false) := by
  have hprops := tokenRuns_props p rs.length rs (le_refl _)
  have hloop := loop_spec_noquote (encodeList rs) p rs.length rs 0 []
    ((encodeList rs).length + 1) (le_refl _) (by simp) hg hq
    (by have := length_le_encodeList rs; omega)
  have hres : ShellSplitEx (encodeList rs) p =
      if ((tokenRuns p rs).map encodeList).length = 0 then (none, none)
      else (some ((tokenRuns p rs).map encodeList), none) := by
    unfold ShellSplitEx
    rw [hloop]
    dsimp only
    simp only [List.nil_append]
  rw [hres]
  by_cases hre : ((tokenRuns p rs).map encodeList).length = 0
  · rw [if_pos hre]
    refine ⟨rfl, ?_, hprops⟩
    simp [List.length_eq_zero.mp hre]
  · rw [if_neg hre]
    exact ⟨rfl, by simp, hprops⟩

/-- C1, witness: the amended theorem applied to the runes of `hi ho` with the
whitespace predicate. -/
theorem c1_witness :
    GoodRunes [104, 105, 32, 104, 111] ∧ NoQuotes [104, 105, 32, 104, 111] ∧
    ((ShellSplitEx (encodeList [104, 105, 32, 104, 111]) isSpace).2 = none ∧
     (ShellSplitEx (encodeList [104, 105, 32, 104, 111]) isSpace).1.getD [] =
       (tokenRuns isSpace [104, 105, 32, 104, 111]).map encodeList ∧
     (∀ g ∈ tokenRuns isSpace [104, 105, 32, 104, 111],
        g ≠ [] ∧ ∀ c ∈ g, isSpace c = false)) :=
  ⟨by decide, by decide, c1_no_quote_tokenization _ _ (by decide) (by decide)⟩

/-- C6, amended: on the empty string, and on every valid input consisting
entirely of separator runes none of which is U+FFFD, `ShellSplitEx` returns
the distinguishable `(nil, nil)` sentinel — no fields and no error — rather
than a present-but-empty sequence. -/
theorem c6_nil_on_no_fields :
    (∀ p : Nat → Bool, ShellSplitEx [] p = (none, none)) ∧
    (∀ (rs : List Nat) (p : Nat → Bool), GoodRunes rs → (∀ c ∈ rs, p c = true) →
      ShellSplitEx (encodeList rs) p = (none, none)) := by
  constructor
  · intro p
    rfl
  · intro rs p hg hps
    cases rs with
    | nil => rfl
    | cons c cs =>
      have hlenpos : 1 ≤ (encodeList (c :: cs)).length := by
        simp only [encodeList, List.length_append]
        have := encodeChar_length_pos c
        omega
      have hb : (encodeList (c :: cs)).drop 0 = encodeList (c :: cs) ++ [] := by simp
      have hfuel : (c :: cs).length < (encodeList (c :: cs)).length + 1 := by
        have := length_le_encodeList (c :: cs)
        omega
      have htw : (c :: cs).takeWhile p = c :: cs := List.takeWhile_eq_self_iff.mpr hps
      have hskip := (skip_spec (encodeList (c :: cs)) p (c :: cs) [] 0
        ((encodeList (c :: cs)).length + 1) hb hg hfuel).1 (Or.inr rfl)
      rw [htw] at hskip
      have hge : ¬ 0 + (encodeList (c :: cs)).length < (encodeList (c :: cs)).length := by
        omega
      have hfind := find_end (encodeList (c :: cs)) p ((encodeList (c :: cs)).length)
        0xFFFD (0 + (encodeList (c :: cs)).length) hge
      have hstep := loop_step_ok (encodeList (c :: cs)) p ((encodeList (c :: cs)).length)
        0 [] _ _ (by omega) hskip hfind
      obtain ⟨f', hf'⟩ : ∃ f', (encodeList (c :: cs)).length = f' + 1 :=
        ⟨(encodeList (c :: cs)).length - 1, by omega⟩
      unfold ShellSplitEx
      rw [hstep, if_neg (by omega), hf', loop_end _ p f' _ [] (by omega)]
      rfl

/-- C6, witness: the amended theorem applied to the single separator rune
`' '` with the whitespace predicate, and to the empty input. -/
theorem c6_witness :
    GoodRunes [0x20] ∧ (∀ c ∈ [0x20], isSpace c = true) ∧
    ShellSplitEx (encodeList [0x20]) isSpace = (none, none) ∧
    ShellSplitEx [] isSpace = (none, none) :=
  ⟨by decide, by decide, c6_nil_on_no_fields.2 [0x20] isSpace (by decide) (by decide),
   c6_nil_on_no_fields.1 isSpace⟩

theorem takeWhile_append_all (q : Nat → Bool) :
    ∀ u v : List Nat, (∀ c ∈ u, q c = true) →
      (u ++ v).takeWhile q = u ++ v.takeWhile q ∧ (u ++ v).dropWhile q = v.dropWhile q := by
  intro u
  induction u with
  | nil => simp
  | cons c cs ih =>
    intro v hu
    have hc : q c = true := hu c (by simp)
    have ihh := ih v (fun x hx => hu x (by simp [hx]))
    constructor
    · rw [List.cons_append, List.takeWhile_cons_of_pos hc, ihh.1, List.cons_append]
    · rw [List.cons_append, List.dropWhile_cons_of_pos hc, ihh.2]

theorem tokenRuns_run_head (p : Nat → Bool) (g v : List Nat) (hne : g ≠ [])
    (hg : ∀ c ∈ g, p c = false) :
    tokenRuns p (g ++ v) =
      (g ++ v.takeWhile (fun x => !p x)) :: tokenRuns p (v.dropWhile (fun x => !p x)) := by
  cases g with
  | nil => exact absurd rfl hne
  | cons c g' =>
    have hall : ∀ c' ∈ c :: g', (fun x => !p x) c' = true := by
      intro c' hc'
      simp [hg c' hc']
    have hsplit := takeWhile_append_all (fun x => !p x) (c :: g') v hall
    rw [List.cons_append, tokenRuns_nonsep_cons p c (g' ++ v)
      (by simp [hg c (by simp)])]
    rw [← List.cons_append, hsplit.1, hsplit.2]

theorem tokenRuns_joinSep (p : Nat → Bool) (hsp : p 0x20 = true) :
    ∀ gss : List (List Nat), (∀ g ∈ gss, g ≠ [] ∧ ∀ c ∈ g, p c = false) →
      tokenRuns p (joinSep [0x20] gss) = gss := by
  intro gss
  induction gss with
  | nil =>
    intro _
    rw [joinSep, tokenRuns]
  | cons g gss ih =>
    intro h
    have hgne := (h g (by simp)).1
    have hgns := (h g (by simp)).2
    cases gss with
    | nil =>
      show tokenRuns p g = [g]
      have h2 := tokenRuns_run_head p g [] hgne hgns
      simpa [tokenRuns] using h2
    | cons g2 t =>
      have hj : joinSep [0x20] (g :: g2 :: t) =
          g ++ ([0x20] ++ joinSep [0x20] (g2 :: t)) := by
        rw [joinSep]
        · simp [List.append_assoc]
        · simp
      rw [hj, tokenRuns_run_head p g _ hgne hgns]
      have htw : ([0x20] ++ joinSep [0x20] (g2 :: t)).takeWhile (fun x => !p x) = [] := by
        simp [List.takeWhile_cons_of_neg, hsp]
      have hdw : ([0x20] ++ joinSep [0x20] (g2 :: t)).dropWhile (fun x => !p x) =
          [0x20] ++ joinSep [0x20] (g2 :: t) := by
        simp [List.dropWhile_cons_of_neg, hsp]
      rw [htw, hdw, List.append_nil]
      have hrest : tokenRuns p ([0x20] ++ joinSep [0x20] (g2 :: t)) = g2 :: t := by
        rw [List.singleton_append, tokenRuns_sep_cons p 0x20 _ hsp]
        exact ih (fun x hx => h x (by simp [hx]))
      rw [hrest]

theorem encode_joinSep (gss : List (List Nat)) :
    joinSep [0x20] (gss.map encodeList) = encodeList (joinSep [0x20] gss) := by
  induction gss with
  | nil => rfl
  | cons g gss ih =>
    cases gss with
    | nil => rfl
    | cons g2 t =>
      show encodeList g ++ [0x20] ++ joinSep [0x20] ((g2 :: t).map encodeList) =
        encodeList (g ++ [0x20] ++ joinSep [0x20] (g2 :: t))
      rw [ih, encodeList_append, encodeList_append]
      rfl

theorem mem_joinSep_space (gss : List (List Nat)) (c : Nat)
    (hc : c ∈ joinSep [0x20] gss) : c = 0x20 ∨ ∃ g ∈ gss, c ∈ g := by
  induction gss with
  | nil => simp [joinSep] at hc
  | cons g gss ih =>
    cases gss with
    | nil =>
      right
      exact ⟨g, by simp, hc⟩
    | cons g2 t =>
      rw [show joinSep [0x20] (g :: g2 :: t) = g ++ [0x20] ++ joinSep [0x20] (g2 :: t)
        from by rw [joinSep]; simp] at hc
      rcases List.mem_append.mp hc with hc1 | hc2
      · rcases List.mem_append.mp hc1 with hc3 | hc4
        · exact Or.inr ⟨g, by simp, hc3⟩
        · left
          simpa using hc4
      · rcases ih hc2 with hsp | ⟨g', hg', hcg'⟩
        · exact Or.inl hsp
        · exact Or.inr ⟨g', by simp [hg'], hcg'⟩

theorem shellSplitEx_some_ne_nil (s : List Nat) (p : Nat → Bool)
    (fields : List (List Nat)) (h : (ShellSplitEx s p).1 = some fields) :
    fields ≠ [] := by
  unfold ShellSplitEx at h
  rcases hsplit : splitLoop s p (s.length + 1) 0 [] with e | ss <;>
    rw [hsplit] at h <;> dsimp only at h
  · simp at h
  · by_cases hl : ss.length = 0
    · rw [if_pos hl] at h
      simp at h
    · rw [if_neg hl] at h
      simp only [Option.some.injEq] at h
      subst h
      exact fun hcon => hl (by simp [hcon])

/-- C9, amended: if `ShellSplitEx s p` succeeds with fields that are the
encodings of non-empty rune sequences none of whose runes is a separator, a
quote, or U+FFFD, and the predicate additionally holds on the joining
space `' '`, then tokenizing the single-space join of the fields with the
same predicate returns exactly the same field sequence. -/
theorem c9_roundtrip (s : List Nat) (p : Nat → Bool) (fields gss : List (List Nat))
    (hsucc : ShellSplitEx s p = (some fields, none))
    (henc : fields = gss.map encodeList)
    (hg : ∀ g ∈ gss, g ≠ [] ∧
      ∀ c ∈ g, validChar c ∧ c ≠ 0xFFFD ∧ p c = false ∧ c ≠ 0x22 ∧ c ≠ 0x27)
    (hsp : p 0x20 = true) :
    ShellSplitEx (joinSep [0x20] fields) p = (some fields, none) := by
  subst henc
  rw [encode_joinSep gss]
  have hgood : GoodRunes (joinSep [0x20] gss) := by
    intro c hc
    rcases mem_joinSep_space gss c hc with hcsp | ⟨g, hgmem, hcg⟩
    · subst hcsp
      exact ⟨by unfold validChar; omega, by omega⟩
    · have := (hg g hgmem).2 c hcg
      exact ⟨this.1, this.2.1⟩
  have hnq : NoQuotes (joinSep [0x20] gss) := by
    intro c hc
    rcases mem_joinSep_space gss c hc with hcsp | ⟨g, hgmem, hcg⟩
    · subst hcsp
      exact ⟨by omega, by omega⟩
    · have := (hg g hgmem).2 c hcg
      exact ⟨this.2.2.2.1, this.2.2.2.2⟩
  have hmain := c1_no_quote_tokenization (joinSep [0x20] gss) p hgood hnq
  have hruns : tokenRuns p (joinSep [0x20] gss) = gss :=
    tokenRuns_joinSep p hsp gss
      (fun g hgm => ⟨(hg g hgm).1, fun c hc => ((hg g hgm).2 c hc).2.2.1⟩)
  have hne : gss.map encodeList ≠ [] :=
    shellSplitEx_some_ne_nil s p _ (by rw [hsucc])
  rcases hres1 : (ShellSplitEx (encodeList (joinSep [0x20] gss)) p).1 with _ | x
  · exfalso
    have h2 := hmain.2.1
    rw [hres1, hruns] at h2
    exact hne h2.symm
  · have h2 := hmain.2.1
    rw [hres1, hruns] at h2
    simp only [Option.getD_some] at h2
    have hpair : ShellSplitEx (encodeList (joinSep [0x20] gss)) p =
        ((ShellSplitEx (encodeList (joinSep [0x20] gss)) p).1,
         (ShellSplitEx (encodeList (joinSep [0x20] gss)) p).2) := rfl
    rw [hpair, hres1, h2, hmain.1]

/-- C9, witness: the amended theorem applied to `a b` with the whitespace
predicate; the round-trip reproduces the fields `a`, `b`. -/
theorem c9_witness :
    ShellSplitEx [97, 32, 98] isSpace = (some [[97], [98]], none) ∧
    ShellSplitEx (joinSep [0x20] [[97], [98]]) isSpace = (some [[97], [98]], none) :=
  ⟨by decide,
   c9_roundtrip [97, 32, 98] isSpace [[97], [98]] [[97], [98]]
     (by decide) (by decide) (by decide) (by decide)⟩

theorem skip_le (b : List Nat) (p : Nat → Bool) :
    ∀ fuel idx j, skipSplitCh b p fuel idx = .ok j →
      idx ≤ j ∧ (idx ≤ b.length → j ≤ b.length) := by
  intro fuel
  induction fuel with
  | zero =>
    intro idx j h
    simp [skipSplitCh] at h
  | succ f ih =>
    intro idx j h
    by_cases hlt : idx < b.length
    · rcases hd : decodeRune (b.drop idx) with ⟨r, s⟩
      by_cases hr : r = 0xFFFD
      · rw [skip_step_err b p f idx hlt (by rw [hd]; exact hr)] at h
        simp at h
      · rw [skip_step b p f idx r s hlt hd hr] at h
        have hs : s ≤ b.length - idx := by
          have h2 := decode_size_le (b.drop idx)
          rw [hd] at h2
          simpa using h2
        by_cases hp : p r
        · rw [if_pos hp] at h
          have ihh := ih (idx + s) j h
          exact ⟨by omega, fun hle => ihh.2 (by omega)⟩
        · rw [if_neg hp] at h
          simp only [Except.ok.injEq] at h
          subst h
          exact ⟨Nat.le_refl idx, fun hle => hle⟩
    · rw [skip_end b p f idx hlt] at h
      simp only [Except.ok.injEq] at h
      subst h
      exact ⟨Nat.le_refl idx, fun hle => hle⟩

theorem feq_le (b : List Nat) (q : Nat) :
    ∀ fuel prev idx j, findEndQuote b q fuel prev idx = .ok j →
      idx ≤ j ∧ (idx ≤ b.length → j ≤ b.length) := by
  intro fuel
  induction fuel with
  | zero =>
    intro prev idx j h
    simp [findEndQuote] at h
  | succ f ih =>
    intro prev idx j h
    by_cases hlt : idx < b.length
    · rcases hd : decodeRune (b.drop idx) with ⟨r, s⟩
      by_cases hr : r = 0xFFFD
      · rw [feq_step_err b q f prev idx hlt (by rw [hd]; exact hr)] at h
        simp at h
      · rw [feq_step b q f prev idx r s hlt hd hr] at h
        have hs : s ≤ b.length - idx := by
          have h2 := decode_size_le (b.drop idx)
          rw [hd] at h2
          simpa using h2
        by_cases hq : r = q ∧ prev ≠ 0x5C
        · rw [if_pos hq] at h
          simp only [Except.ok.injEq] at h
          subst h
          exact ⟨by omega, fun hle => by omega⟩
        · rw [if_neg hq] at h
          have ihh := ih r (idx + s) j h
          exact ⟨by omega, fun hle => ihh.2 (by omega)⟩
    · rw [feq_end b q f prev idx hlt] at h
      simp at h

theorem find_le (b : List Nat) (p : Nat → Bool) :
    ∀ fuel prev idx j, findSplitCh b p fuel prev idx = .ok j →
      idx ≤ j ∧ (idx ≤ b.length → j ≤ b.length) := by
  intro fuel
  induction fuel with
  | zero =>
    intro prev idx j h
    simp [findSplitCh] at h
  | succ f ih =>
    intro prev idx j h
    by_cases hlt : idx < b.length
    · rcases hd : decodeRune (b.drop idx) with ⟨r, s⟩
      by_cases hr : r = 0xFFFD
      · rw [find_step_err b p f prev idx hlt (by rw [hd]; exact hr)] at h
        simp at h
      · rw [find_step b p f prev idx r s hlt hd hr] at h
        have hs : s ≤ b.length - idx := by
          have h2 := decode_size_le (b.drop idx)
          rw [hd] at h2
          simpa using h2
        by_cases hp : p r
        · rw [if_pos hp] at h
          simp only [Except.ok.injEq] at h
          subst h
          exact ⟨Nat.le_refl idx, fun hle => hle⟩
        · rw [if_neg hp] at h
          by_cases hqc : r = 0x22 ∨ r = 0x27
          · rw [if_pos hqc] at h
            by_cases hprev : prev = 0x5C
            · rw [if_pos hprev] at h
              have ihh := ih r (idx + s) j h
              exact ⟨by omega, fun hle => ihh.2 (by omega)⟩
            · rw [if_neg hprev] at h
              rcases hfeq : findEndQuote b r f 0xFFFD (idx + s) with e | j2
              · rw [hfeq] at h
                simp at h
              · rw [hfeq] at h
                dsimp only at h
                have hq2 := feq_le b r f 0xFFFD (idx + s) j2 hfeq
                have ihh := ih r j2 j h
                constructor
                · omega
                · intro hle
                  exact ihh.2 (hq2.2 (by omega))
          · rw [if_neg hqc] at h
            have ihh := ih r (idx + s) j h
            exact ⟨by omega, fun hle => ihh.2 (by omega)⟩
    · rw [find_end b p f prev idx hlt] at h
      simp only [Except.ok.injEq] at h
      subst h
      exact ⟨Nat.le_refl idx, fun hle => hle⟩

theorem loop_fields (b : List Nat) (p : Nat → Bool) :
    ∀ fuel idx ss ss', idx ≤ b.length → splitLoop b p fuel idx ss = .ok ss' →
      (∀ f ∈ ss, ∃ i j, i < j ∧ j ≤ b.length ∧ f = emitField b i j) →
      ∀ f ∈ ss', ∃ i j, i < j ∧ j ≤ b.length ∧ f = emitField b i j := by
  intro fuel
  induction fuel with
  | zero =>
    intro idx ss ss' _ h _
    simp [splitLoop] at h
  | succ f ih =>
    intro idx ss ss' hle h hss
    by_cases hlt : idx < b.length
    · rcases hskip : skipSplitCh b p (f + 1) idx with e | start
      · rw [loop_step_skiperr b p f idx ss e hlt hskip] at h
        simp at h
      · rcases hfind : findSplitCh b p (f + 1) 0xFFFD start with e | stop
        · rw [loop_step_finderr b p f idx ss start e hlt hskip hfind] at h
          simp at h
        · rw [loop_step_ok b p f idx ss start stop hlt hskip hfind] at h
          have hsk := skip_le b p (f + 1) idx start hskip
          have hfd := find_le b p (f + 1) 0xFFFD start stop hfind
          have hstople : stop ≤ b.length := hfd.2 (hsk.2 hle)
          apply ih stop _ ss' hstople h
          intro g hg
          by_cases hlt2 : start < stop
          · rw [if_pos hlt2] at hg
            rcases List.mem_append.mp hg with hg1 | hg2
            · exact hss g hg1
            · simp only [List.mem_singleton] at hg2
              subst hg2
              exact ⟨start, stop, hlt2, hstople, rfl⟩
          · rw [if_neg hlt2] at hg
            exact hss g hg
    · rw [loop_end b p f idx ss hlt] at h
      simp only [Except.ok.injEq] at h
      subst h
      exact hss

/-- C3: every field emitted by `ShellSplitEx` comes from a scanned span
`[i, j)` with `i < j` within the input: when the span's first and last bytes
are the same quote character, the field is the substring strictly between
them, otherwise the field is the full `[i, j)` substring verbatim (a plain
byte slice, so interior escape backslashes are preserved and no un-escaping
is performed).  Moreover the spec's escaped-quote scenario holds: tokenizing
`"here, \"quoted\", \'too\', there"` keeps the escaped quotes verbatim
inside the single field while stripping the outer quote pair. -/
theorem c3_span_emission :
    (∀ (b : List Nat) (p : Nat → Bool) (fields : List (List Nat)),
      (ShellSplitEx b p).1 = some fields →
      ∀ f ∈ fields, ∃ i j, i < j ∧ j ≤ b.length ∧
        ((b.getD i 0 = b.getD (j - 1) 0 ∧ (b.getD i 0 = 0x22 ∨ b.getD i 0 = 0x27)) →
          f = sub b (i + 1) (j - 1)) ∧
        (¬ (b.getD i 0 = b.getD (j - 1) 0 ∧ (b.getD i 0 = 0x22 ∨ b.getD i 0 = 0x27)) →
          f = sub b i j)) ∧
    ShellSplit (strBytes "\"here, \\\"quoted\\\", \\'too\\', there\"") =
      (some [strBytes "here, \\\"quoted\\\", \\'too\\', there"], none) := by
  constructor
  · intro b p fields hres f hf
    obtain ⟨ss, hss, hssf⟩ : ∃ ss, splitLoop b p (b.length + 1) 0 [] = .ok ss ∧
        ss = fields := by
      unfold ShellSplitEx at hres
      rcases hsplit : splitLoop b p (b.length + 1) 0 [] with e | ss <;>
        rw [hsplit] at hres <;> dsimp only at hres
      · simp at hres
      · by_cases hl : ss.length = 0
        · rw [if_pos hl] at hres
          simp at hres
        · rw [if_neg hl] at hres
          simp only [Option.some.injEq] at hres
          exact ⟨ss, rfl, hres⟩
    subst hssf
    have hspan := loop_fields b p (b.length + 1) 0 [] ss (by omega) hss (by simp) f hf
    obtain ⟨i, j, hij, hjle, hfe⟩ := hspan
    refine ⟨i, j, hij, hjle, ?_, ?_⟩
    · intro hcond
      rw [hfe]
      unfold emitField
      rw [if_pos hcond]
    · intro hcond
      rw [hfe]
      unfold emitField
      rw [if_neg hcond]
  · decide

/-- C3, witness: the general span-emission statement applied to the concrete
input `ab` with the whitespace predicate. -/
theorem c3_witness :
    (ShellSplitEx [97, 98] isSpace).1 = some [[97, 98]] ∧
    (∃ i j, i < j ∧ j ≤ ([97, 98] : List Nat).length ∧
      ((([97, 98] : List Nat).getD i 0 = ([97, 98] : List Nat).getD (j - 1) 0 ∧
        (([97, 98] : List Nat).getD i 0 = 0x22 ∨ ([97, 98] : List Nat).getD i 0 = 0x27)) →
        [97, 98] = sub [97, 98] (i + 1) (j - 1)) ∧
      (¬ (([97, 98] : List Nat).getD i 0 = ([97, 98] : List Nat).getD (j - 1) 0 ∧
        (([97, 98] : List Nat).getD i 0 = 0x22 ∨ ([97, 98] : List Nat).getD i 0 = 0x27)) →
        [97, 98] = sub [97, 98] i j)) :=
  ⟨by decide,
   c3_span_emission.1 [97, 98] isSpace [[97, 98]] (by decide) [97, 98] (by decide)⟩

theorem quoteScan_split (q : Nat) :
    ∀ rs prev u v, quoteScan q prev rs = some (u, v) → rs = u ++ v ∧ u ≠ [] := by
  intro rs
  induction rs with
  | nil =>
    intro prev u v h
    simp [quoteScan] at h
  | cons c cs ih =>
    intro prev u v h
    rw [quoteScan] at h
    by_cases hc : c = q ∧ prev ≠ 0x5C
    · rw [if_pos hc] at h
      simp only [Option.some.injEq, Prod.mk.injEq] at h
      obtain ⟨hu, hv⟩ := h
      subst hu
      subst hv
      exact ⟨rfl, by simp⟩
    · rw [if_neg hc] at h
      rcases hqs : quoteScan q c cs with _ | ⟨u2, v2⟩
      · rw [hqs] at h
        simp at h
      · rw [hqs] at h
        dsimp only at h
        simp only [Option.some.injEq, Prod.mk.injEq] at h
        obtain ⟨hu, hv⟩ := h
        subst hu
        subst hv
        obtain ⟨heq, _⟩ := ih c u2 v2 hqs
        exact ⟨by rw [List.cons_append, ← heq], by simp⟩

theorem feq_spec (b : List Nat) (q : Nat) (rest : List Nat) :
    ∀ rs prev idx fuel, b.drop idx = encodeList rs ++ rest → GoodRunes rs →
      rs.length < fuel →
      (∀ u v, quoteScan q prev rs = some (u, v) →
        findEndQuote b q fuel prev idx = .ok (idx + (encodeList u).length)) ∧
      (quoteScan q prev rs = none → rest = [] →
        findEndQuote b q fuel prev idx = .error (.noEndQuote q)) ∧
      (quoteScan q prev rs = none → rest ≠ [] → (decodeRune rest).1 = 0xFFFD →
        ∃ e, findEndQuote b q fuel prev idx = .error e ∧ isInvalidEnc e = true) := by
  intro rs
  induction rs with
  | nil =>
    intro prev idx fuel hdrop hg hfuel
    obtain ⟨f, rfl⟩ : ∃ f, fuel = f + 1 := ⟨fuel - 1, by omega⟩
    simp only [encodeList, List.nil_append] at hdrop
    refine ⟨?_, ?_, ?_⟩
    · intro u v h
      simp [quoteScan] at h
    · intro _ hrest
      subst hrest
      exact feq_end b q f prev idx (drop_eq_nil_ge b idx hdrop)
    · intro _ hne hdec
      have hlt : idx < b.length := drop_lt_length b idx (by rw [hdrop]; exact hne)
      exact ⟨_, feq_step_err b q f prev idx hlt (by rw [hdrop]; exact hdec), rfl⟩
  | cons c cs ih =>
    intro prev idx fuel hdrop hg hfuel
    obtain ⟨f, rfl⟩ : ∃ f, fuel = f + 1 := ⟨fuel - 1, by omega⟩
    obtain ⟨hlt, hdec2, hnext⟩ := enc_pos_facts b c cs rest idx hdrop (goodRunes_head hg).1
    have hstep := feq_step b q f prev idx c (encodeChar c).length hlt hdec2 (goodRunes_head hg).2
    have ihh := ih c (idx + (encodeChar c).length) f hnext (goodRunes_tail hg)
      (by simp only [List.length_cons] at hfuel; omega)
    by_cases hc : c = q ∧ prev ≠ 0x5C
    · refine ⟨?_, ?_, ?_⟩
      · intro u v h
        rw [quoteScan, if_pos hc] at h
        simp only [Option.some.injEq, Prod.mk.injEq] at h
        obtain ⟨hu, hv⟩ := h
        subst hu
        rw [hstep, if_pos hc]
        simp [encodeList]
      · intro h
        rw [quoteScan, if_pos hc] at h
        simp at h
      · intro h
        rw [quoteScan, if_pos hc] at h
        simp at h
    · have hqs_eq : quoteScan q prev (c :: cs) =
          match quoteScan q c cs with
          | some (u, v) => some (c :: u, v)
          | none => none := by
        rw [quoteScan, if_neg hc]
      refine ⟨?_, ?_, ?_⟩
      · intro u v h
        rw [hqs_eq] at h
        rcases hqs : quoteScan q c cs with _ | ⟨u2, v2⟩
        · rw [hqs] at h
          simp at h
        · rw [hqs] at h
          dsimp only at h
          simp only [Option.some.injEq, Prod.mk.injEq] at h
          obtain ⟨hu, hv⟩ := h
          subst hu
          subst hv
          rw [hstep, if_neg hc, ihh.1 u2 v2 hqs]
          simp only [encodeList, List.length_append]
          exact congrArg _ (by omega)
      · intro h hrest
        rw [hqs_eq] at h
        rcases hqs : quoteScan q c cs with _ | ⟨u2, v2⟩
        · rw [hstep, if_neg hc]
          exact ihh.2.1 hqs hrest
        · rw [hqs] at h
          simp at h
      · intro h hne hdec
        rw [hqs_eq] at h
        rcases hqs : quoteScan q c cs with _ | ⟨u2, v2⟩
        · obtain ⟨e, he, hinv⟩ := ihh.2.2 hqs hne hdec
          exact ⟨e, by rw [hstep, if_neg hc]; exact he, hinv⟩
        · rw [hqs] at h
          simp at h

theorem find_tail_spec (b : List Nat) (p : Nat → Bool) (rest : List Nat)
    (hne : rest ≠ []) (hdec : (decodeRune rest).1 = 0xFFFD) :
    ∀ n rs prev idx fuel, rs.length ≤ n → GoodRunes rs → rs.length < fuel →
      b.drop idx = encodeList rs ++ rest →
      (∃ e, findSplitCh b p fuel prev idx = .error e ∧ isInvalidEnc e = true) ∨
      (∃ rs₁ c rs₂, rs = rs₁ ++ c :: rs₂ ∧ p c = true ∧
        findSplitCh b p fuel prev idx = .ok (idx + (encodeList rs₁).length)) := by
  intro n
  induction n with
  | zero =>
    intro rs prev idx fuel hn hg hfuel hdrop
    have hrs : rs = [] := List.length_eq_zero.mp (by omega)
    subst hrs
    obtain ⟨f, rfl⟩ : ∃ f, fuel = f + 1 := ⟨fuel - 1, by omega⟩
    simp only [encodeList, List.nil_append] at hdrop
    have hlt : idx < b.length := drop_lt_length b idx (by rw [hdrop]; exact hne)
    exact Or.inl ⟨_, find_step_err b p f prev idx hlt (by rw [hdrop]; exact hdec), rfl⟩
  | succ n ihn =>
    intro rs prev idx fuel hn hg hfuel hdrop
    cases rs with
    | nil =>
      obtain ⟨f, rfl⟩ : ∃ f, fuel = f + 1 := ⟨fuel - 1, by omega⟩
      simp only [encodeList, List.nil_append] at hdrop
      have hlt : idx < b.length := drop_lt_length b idx (by rw [hdrop]; exact hne)
      exact Or.inl ⟨_, find_step_err b p f prev idx hlt (by rw [hdrop]; exact hdec), rfl⟩
    | cons c cs =>
      obtain ⟨f, rfl⟩ : ∃ f, fuel = f + 1 := ⟨fuel - 1, by omega⟩
      obtain ⟨hlt, hdec2, hnext⟩ := enc_pos_facts b c cs rest idx hdrop (goodRunes_head hg).1
      have hstep := find_step b p f prev idx c (encodeChar c).length hlt hdec2 (goodRunes_head hg).2
      by_cases hp : p c
      · exact Or.inr ⟨[], c, cs, rfl, hp, by rw [hstep, if_pos hp]; simp [encodeList]⟩
      · by_cases hqc : c = 0x22 ∨ c = 0x27
        · by_cases hprev : prev = 0x5C
          · have ihh := ihn cs c (idx + (encodeChar c).length) f
              (by simp only [List.length_cons] at hn; omega) (goodRunes_tail hg)
              (by simp only [List.length_cons] at hfuel; omega) hnext
            rcases ihh with ⟨e, he, hinv⟩ | ⟨rs₁, d, rs₂, hrs, hd, hok⟩
            · exact Or.inl ⟨e,
                by rw [hstep, if_neg hp, if_pos hqc, if_pos hprev]; exact he, hinv⟩
            · refine Or.inr ⟨c :: rs₁, d, rs₂, by rw [List.cons_append, ← hrs], hd, ?_⟩
              rw [hstep, if_neg hp, if_pos hqc, if_pos hprev, hok]
              simp only [encodeList, List.length_append]
              exact congrArg _ (by omega)
          · have hfq := feq_spec b c rest cs 0xFFFD (idx + (encodeChar c).length) f
              hnext (goodRunes_tail hg) (by simp only [List.length_cons] at hfuel; omega)
            rcases hqs : quoteScan c 0xFFFD cs with _ | ⟨u, v⟩
            · obtain ⟨e, he, hinv⟩ := hfq.2.2 hqs hne hdec
              refine Or.inl ⟨.quoteWrap (idx + (encodeChar c).length)
                (b.take (idx + (encodeChar c).length)) e, ?_, by
                  simpa [isInvalidEnc] using hinv⟩
              rw [hstep, if_neg hp, if_pos hqc, if_neg hprev, he]
            · have hofeq := hfq.1 u v hqs
              obtain ⟨hcs, hune⟩ := quoteScan_split c cs 0xFFFD u v hqs
              have hlencs : cs.length = u.length + v.length := by
                have h2 := congrArg List.length hcs
                simpa using h2
              have hulen : 1 ≤ u.length := List.length_pos.mpr hune
              have hnext2 : b.drop (idx + (encodeChar c).length + (encodeList u).length) =
                  encodeList v ++ rest := by
                have hsplit2 : b.drop (idx + (encodeChar c).length) =
                    encodeList u ++ (encodeList v ++ rest) := by
                  rw [hnext, hcs, encodeList_append, List.append_assoc]
                exact drop_split b _ _ _ hsplit2
              have ihh := ihn v c
                (idx + (encodeChar c).length + (encodeList u).length) f
                (by simp only [List.length_cons] at hn; omega)
                (fun x hx => (goodRunes_tail hg) x (by rw [hcs]; exact List.mem_append_right u hx))
                (by simp only [List.length_cons] at hfuel; omega) hnext2
              rcases ihh with ⟨e, he, hinv⟩ | ⟨rs₁, d, rs₂, hrs, hd, hok⟩
              · refine Or.inl ⟨e, ?_, hinv⟩
                rw [hstep, if_neg hp, if_pos hqc, if_neg hprev, hofeq]
                dsimp only
                exact he
              · refine Or.inr ⟨c :: u ++ rs₁, d, rs₂, ?_, hd, ?_⟩
                · rw [hcs, hrs]
                  simp [List.append_assoc]
                · rw [hstep, if_neg hp, if_pos hqc, if_neg hprev, hofeq]
                  dsimp only
                  rw [hok]
                  refine congrArg _ ?_
                  rw [List.cons_append]
                  show idx + (encodeChar c).length + (encodeList u).length +
                      (encodeList rs₁).length =
                    idx + (encodeChar c ++ encodeList (u ++ rs₁)).length
                  rw [encodeList_append, List.length_append, List.length_append]
                  omega
        · have ihh := ihn cs c (idx + (encodeChar c).length) f
            (by simp only [List.length_cons] at hn; omega) (goodRunes_tail hg)
            (by simp only [List.length_cons] at hfuel; omega) hnext
          rcases ihh with ⟨e, he, hinv⟩ | ⟨rs₁, d, rs₂, hrs, hd, hok⟩
          · exact Or.inl ⟨e, by rw [hstep, if_neg hp, if_neg hqc]; exact he, hinv⟩
          · refine Or.inr ⟨c :: rs₁, d, rs₂, by rw [List.cons_append, ← hrs], hd, ?_⟩
            rw [hstep, if_neg hp, if_neg hqc, hok]
            simp only [encodeList, List.length_append]
            exact congrArg _ (by omega)

theorem loop_tail_spec (b : List Nat) (p : Nat → Bool) (rest : List Nat)
    (hne : rest ≠ []) (hdec : (decodeRune rest).1 = 0xFFFD) :
    ∀ n rs idx ss fuel, rs.length ≤ n → GoodRunes rs → rs.length < fuel →
      b.drop idx = encodeList rs ++ rest →
      ∃ e, splitLoop b p fuel idx ss = .error e ∧ isInvalidEnc e = true := by
  intro n
  induction n with
  | zero =>
    intro rs idx ss fuel hn hg hfuel hdrop
    have hrs : rs = [] := List.length_eq_zero.mp (by omega)
    subst hrs
    obtain ⟨f, rfl⟩ : ∃ f, fuel = f + 1 := ⟨fuel - 1, by omega⟩
    simp only [encodeList, List.nil_append] at hdrop
    have hlt : idx < b.length := drop_lt_length b idx (by rw [hdrop]; exact hne)
    obtain ⟨e, he, hinv⟩ := (skip_spec b p [] rest idx (f + 1)
      (by simpa using hdrop) (by intro c hc; simp at hc) hfuel).2 hdec hne rfl
    exact ⟨e, loop_step_skiperr b p f idx ss e hlt he, hinv⟩
  | succ n ihn =>
    intro rs idx ss fuel hn hg hfuel hdrop
    obtain ⟨f, rfl⟩ : ∃ f, fuel = f + 1 := ⟨fuel - 1, by omega⟩
    have hlt : idx < b.length := by
      apply drop_lt_length
      rw [hdrop]
      intro hcon
      exact hne (List.append_eq_nil.mp hcon).2
    by_cases htw : rs.takeWhile p = rs
    · obtain ⟨e, he, hinv⟩ := (skip_spec b p rs rest idx (f + 1) hdrop hg hfuel).2
        hdec hne htw
      exact ⟨e, loop_step_skiperr b p f idx ss e hlt he, hinv⟩
    · have hskip := (skip_spec b p rs rest idx (f + 1) hdrop hg hfuel).1 (Or.inl htw)
      have hdrop2 : b.drop (idx + (encodeList (rs.takeWhile p)).length) =
          encodeList (rs.dropWhile p) ++ rest := by
        have hsplit : b.drop idx = encodeList (rs.takeWhile p) ++
            (encodeList (rs.dropWhile p) ++ rest) := by
          rw [← List.append_assoc, ← encodeList_append, List.takeWhile_append_dropWhile]
          exact hdrop
        exact drop_split b _ _ idx hsplit
      have hlen_tw_dw : (rs.takeWhile p).length + (rs.dropWhile p).length = rs.length := by
        have h2 := congrArg List.length (List.takeWhile_append_dropWhile (p := p) (l := rs))
        rw [List.length_append] at h2
        exact h2
      have hfind := find_tail_spec b p rest hne hdec (rs.dropWhile p).length
        (rs.dropWhile p) 0xFFFD (idx + (encodeList (rs.takeWhile p)).length) (f + 1)
        (le_refl _) (goodRunes_sub (List.dropWhile_sublist _) hg) (by omega) hdrop2
      rcases hfind with ⟨e, he, hinv⟩ | ⟨rs₁, d, rs₂, hrs2, hd, hok⟩
      · exact ⟨e, loop_step_finderr b p f idx ss _ e hlt hskip he, hinv⟩
      · have hdrop3 : b.drop (idx + (encodeList (rs.takeWhile p)).length +
            (encodeList rs₁).length) = encodeList (d :: rs₂) ++ rest := by
          have hsplit2 : b.drop (idx + (encodeList (rs.takeWhile p)).length) =
              encodeList rs₁ ++ (encodeList (d :: rs₂) ++ rest) := by
            rw [hdrop2, hrs2, encodeList_append, List.append_assoc]
          exact drop_split b _ _ _ hsplit2
        have hlen_dw : (rs.dropWhile p).length = rs₁.length + (rs₂.length + 1) := by
          have h2 := congrArg List.length hrs2
          simpa using h2
        have hcons1 : 1 ≤ (rs.takeWhile p).length + rs₁.length := by
          by_contra hcon
          push_neg at hcon
          have htw0 : (rs.takeWhile p).length = 0 := by omega
          have hrs10 : rs₁.length = 0 := by omega
          have hrs1nil : rs₁ = [] := List.length_eq_zero.mp hrs10
          have hdw_eq : rs.dropWhile p = d :: rs₂ := by
            rw [hrs2, hrs1nil, List.nil_append]
          have hdwne : rs.dropWhile p ≠ [] := by
            rw [hdw_eq]
            simp
          have hh := List.head_dropWhile_not p rs hdwne
          have hhead : (rs.dropWhile p).head hdwne = d := by
            simp [hdw_eq]
          rw [hhead] at hh
          rw [hd] at hh
          exact Bool.noConfusion hh
        have ihh := ihn (d :: rs₂)
          (idx + (encodeList (rs.takeWhile p)).length + (encodeList rs₁).length)
          (if idx + (encodeList (rs.takeWhile p)).length <
              idx + (encodeList (rs.takeWhile p)).length + (encodeList rs₁).length then
            ss ++ [emitField b (idx + (encodeList (rs.takeWhile p)).length)
              (idx + (encodeList (rs.takeWhile p)).length + (encodeList rs₁).length)]
          else ss) f
          (by simp only [List.length_cons]; omega)
          (fun x hx => hg x ((List.dropWhile_sublist p (l := rs)).subset
            (by rw [hrs2]; exact List.mem_append_right rs₁ hx)))
          (by simp only [List.length_cons]; omega) hdrop3
        obtain ⟨e, he, hinv⟩ := ihh
        exact ⟨e, by rw [loop_step_ok b p f idx ss _ _ hlt hskip hok]; exact he, hinv⟩

theorem bootLoop_missing (line : List Nat) (rls : List (List Nat))
    (cmds : List (List Nat)) (h : splitFirstEq line = none) :
    bootLoop (line :: rls) cmds = (none, some (.missingSep line)) := by
  rw [bootLoop, h]

theorem bootLoop_valueErr (line : List Nat) (rls : List (List Nat))
    (cmds : List (List Nat)) (k v : List Nat) (fs : Option (List (List Nat)))
    (e : SplitErr) (h : splitFirstEq line = some (k, v))
    (h2 : ShellSplitEx v cfgPred = (fs, some e)) :
    bootLoop (line :: rls) cmds = (none, some (.valueErr line e)) := by
  rw [bootLoop, h]
  dsimp only
  rw [h2]

theorem bootLoop_okstep (line : List Nat) (rls : List (List Nat))
    (cmds : List (List Nat)) (k v : List Nat) (fs : Option (List (List Nat)))
    (h : splitFirstEq line = some (k, v))
    (h2 : ShellSplitEx v cfgPred = (fs, none)) :
    bootLoop (line :: rls) cmds =
      bootLoop rls (cmds ++ [trimSpace k ++ 0x3D :: joinSep [0x2C] (fs.getD [])]) := by
  rw [bootLoop, h]
  dsimp only
  rw [h2]

theorem validF_encodeList (rs : List Nat) (h : ∀ c ∈ rs, validChar c) :
    ∀ fuel, rs.length < fuel → validUtf8F fuel (encodeList rs) = true := by
  induction rs with
  | nil =>
    intro fuel hf
    obtain ⟨f, rfl⟩ : ∃ f, fuel = f + 1 := ⟨fuel - 1, by omega⟩
    simp [validUtf8F, encodeList]
  | cons c cs ih =>
    intro fuel hf
    obtain ⟨f, rfl⟩ : ∃ f, fuel = f + 1 := ⟨fuel - 1, by omega⟩
    have hb : encodeList (c :: cs) ≠ [] := by
      intro hcon
      simp [encodeList_nil_iff] at hcon
    have hd : decodeRune (encodeList (c :: cs)) = (c, (encodeChar c).length) := by
      show decodeRune (encodeChar c ++ encodeList cs) = _
      exact decode_encode c (h c (by simp)) _
    simp only [validUtf8F, if_neg hb]
    rw [hd]
    have hcond : ¬ ((c, (encodeChar c).length).1 = 0xFFFD ∧
        (c, (encodeChar c).length).2 ≤ 1) := by
      rintro ⟨hc1, hc2⟩
      dsimp only at hc1 hc2
      subst hc1
      exact absurd hc2 (by decide)
    rw [if_neg hcond]
    have hdrop : (encodeList (c :: cs)).drop (c, (encodeChar c).length).2 =
        encodeList cs := by
      show (encodeChar c ++ encodeList cs).drop (encodeChar c).length = _
      exact List.drop_left _ _
    rw [hdrop]
    exact ih (fun x hx => h x (by simp [hx])) f
      (by simp only [List.length_cons] at hf; omega)

theorem valid_encodeList (rs : List Nat) (h : ∀ c ∈ rs, validChar c) :
    validUtf8 (encodeList rs) = true := by
  unfold validUtf8
  exact validF_encodeList rs h _ (by have := length_le_encodeList rs; omega)

theorem utf8_decompose : ∀ n (b : List Nat), b.length ≤ n →
    (∃ rs, (∀ c ∈ rs, validChar c) ∧ b = encodeList rs) ∨
    (∃ rs rest, GoodRunes rs ∧ b = encodeList rs ++ rest ∧ rest ≠ [] ∧
      (decodeRune rest).1 = 0xFFFD) := by
  intro n
  induction n with
  | zero =>
    intro b hb
    have hbnil : b = [] := List.length_eq_zero.mp (by omega)
    exact Or.inl ⟨[], by simp, by rw [hbnil]; rfl⟩
  | succ n ihn =>
    intro b hb
    by_cases hbnil : b = []
    · exact Or.inl ⟨[], by simp, by rw [hbnil]; rfl⟩
    · by_cases hr : (decodeRune b).1 = 0xFFFD
      · exact Or.inr ⟨[], b, by intro c hc; simp at hc, by simp [encodeList], hbnil, hr⟩
      · obtain ⟨r, s, hrd⟩ : ∃ r s, decodeRune b = (r, s) := ⟨_, _, rfl⟩
        rw [hrd] at hr
        dsimp only at hr
        obtain ⟨hv, htake, hlen⟩ := decode_sound b (by rw [hrd]; exact hr)
        rw [hrd] at hv htake hlen
        dsimp only at hv htake hlen
        have hsize1 : 1 ≤ s := by
          have h2 := decode_size_pos b hbnil
          rw [hrd] at h2
          exact h2
        have hbsplit : b = encodeChar r ++ b.drop s := by
          conv_lhs => rw [← List.take_append_drop s b]
          rw [htake]
        have hdroplen : (b.drop s).length ≤ n := by
          simp only [List.length_drop]
          have := List.length_pos.mpr hbnil
          omega
        rcases ihn (b.drop s) hdroplen with
          ⟨rs, hrs, heq⟩ | ⟨rs, rest, hg, heq, hrne, hrdec⟩
        · refine Or.inl ⟨r :: rs, ?_, ?_⟩
          · intro c hc
            rcases List.mem_cons.mp hc with rfl | hc2
            · exact hv
            · exact hrs c hc2
          · rw [hbsplit, heq]
            rfl
        · refine Or.inr ⟨r :: rs, rest, ?_, ?_, hrne, hrdec⟩
          · intro c hc
            rcases List.mem_cons.mp hc with rfl | hc2
            · exact ⟨hv, hr⟩
            · exact hg c hc2
          · conv_lhs => rw [hbsplit, heq]
            rw [← List.append_assoc]
            rfl

/-- C5: tokenizing any byte string that is not a valid UTF-8 encoding fails
with an invalid-encoding error (possibly wrapped by a quote-context error)
and no fields; and whenever `ShellSplitEx` or `ParseBootConfig` returns an
error of any kind, it returns no fields at all (the field slice is the
absent `nil`, never a partial result). -/
theorem c5_invalid_encoding_and_no_partial :
    (∀ (b : List Nat) (p : Nat → Bool), validUtf8 b = false →
      ∃ e, ShellSplitEx b p = (none, some e) ∧ isInvalidEnc e = true) ∧
    (∀ (s : List Nat) (p : Nat → Bool) (e : SplitErr),
      (ShellSplitEx s p).2 = some e → (ShellSplitEx s p).1 = none) ∧
    (∀ (s : List Nat) (e : CfgErr),
      (ParseBootConfig s).2 = some e → (ParseBootConfig s).1 = none) := by
  refine ⟨?_, ?_, ?_⟩
  · intro b p hval
    rcases utf8_decompose b.length b (le_refl _) with
      ⟨rs, hrs, heq⟩ | ⟨rs, rest, hg, heq, hrne, hrdec⟩
    · exfalso
      rw [heq, valid_encodeList rs hrs] at hval
      exact Bool.noConfusion hval
    · have hdrop : b.drop 0 = encodeList rs ++ rest := by simpa using heq
      have hfuel : rs.length < b.length + 1 := by
        have h2 := congrArg List.length heq
        simp only [List.length_append] at h2
        have := length_le_encodeList rs
        omega
      obtain ⟨e, he, hinv⟩ := loop_tail_spec b p rest hrne hrdec rs.length rs 0 []
        (b.length + 1) (le_refl _) hg hfuel hdrop
      refine ⟨e, ?_, hinv⟩
      unfold ShellSplitEx
      rw [he]
  · intro s p e h
    unfold ShellSplitEx at h ⊢
    rcases hsplit : splitLoop s p (s.length + 1) 0 [] with e2 | ss
    · rfl
    · rw [hsplit] at h
      dsimp only at h
      by_cases hl : ss.length = 0
      · show (if ss.length = 0 then ((none, none) :
            Option (List (List Nat)) × Option SplitErr) else (some ss, none)).1 = none
        rw [if_pos hl]
      · rw [if_neg hl] at h
        simp at h
  · intro s e h
    have hshape : ∀ lines cmds e2, (bootLoop lines cmds).2 = some e2 →
        (bootLoop lines cmds).1 = none := by
      intro lines
      induction lines with
      | nil =>
        intro cmds e2 h2
        simp [bootLoop] at h2
      | cons line rls ih =>
        intro cmds e2 h2
        rcases hsp : splitFirstEq line with _ | ⟨k, v⟩
        · rw [bootLoop_missing line rls cmds hsp]
        · rcases hsse : ShellSplitEx v cfgPred with ⟨fs, oe⟩
          rcases oe with _ | e3
          · rw [bootLoop_okstep line rls cmds k v fs hsp hsse] at h2 ⊢
            exact ih _ e2 h2
          · rw [bootLoop_valueErr line rls cmds k v fs e3 hsp hsse]
    exact hshape (splitLines s) [] e h

/-- C5, witness: the byte `0xFF` is not valid UTF-8, and tokenizing it with
the whitespace predicate fails with an invalid-encoding error and no
fields. -/
theorem c5_witness :
    validUtf8 [0xFF] = false ∧
    (∃ e, ShellSplitEx [0xFF] isSpace = (none, some e) ∧ isInvalidEnc e = true) :=
  ⟨by decide, c5_invalid_encoding_and_no_partial.1 [0xFF] isSpace (by decide)⟩

theorem splitLines_single (b : List Nat) (hne : b ≠ []) (hnl : 0x0A ∉ b)
    (hcr : ¬ b.getLast? = some 0x0D) : splitLines b = [b] := by
  unfold splitLines
  rw [splitLinesF, if_neg hne, if_neg hnl, dropCR, if_neg hcr]

theorem splitFirstEq_append (k v : List Nat) (hk : 0x3D ∉ k) :
    splitFirstEq (k ++ 0x3D :: v) = some (k, v) := by
  induction k with
  | nil => simp [splitFirstEq]
  | cons c cs ih =>
    have hc : ¬ c = 0x3D := by
      intro hc
      exact hk (by simp [hc])
    rw [List.cons_append, splitFirstEq, if_neg hc,
      ih (fun hc2 => hk (by simp [hc2]))]

theorem splitFirstEq_none (l : List Nat) (h : 0x3D ∉ l) : splitFirstEq l = none := by
  induction l with
  | nil => rfl
  | cons c cs ih =>
    have hc : ¬ c = 0x3D := by
      intro hc
      exact h (by simp [hc])
    rw [splitFirstEq, if_neg hc, ih (fun hc2 => h (by simp [hc2]))]

theorem splitFirstEq_sound : ∀ l k v : List Nat, splitFirstEq l = some (k, v) →
    l = k ++ 0x3D :: v ∧ 0x3D ∉ k := by
  intro l
  induction l with
  | nil =>
    intro k v h
    simp [splitFirstEq] at h
  | cons c cs ih =>
    intro k v h
    rw [splitFirstEq] at h
    by_cases hc : c = 0x3D
    · rw [if_pos hc] at h
      simp only [Option.some.injEq, Prod.mk.injEq] at h
      obtain ⟨hk, hv⟩ := h
      subst hk
      subst hv
      subst hc
      exact ⟨rfl, by simp⟩
    · rw [if_neg hc] at h
      rcases hsp : splitFirstEq cs with _ | ⟨k2, v2⟩
      · rw [hsp] at h
        simp at h
      · rw [hsp] at h
        dsimp only at h
        simp only [Option.some.injEq, Prod.mk.injEq] at h
        obtain ⟨hk, hv⟩ := h
        subst hk
        subst hv
        obtain ⟨heq, hnk⟩ := ih k2 v2 hsp
        constructor
        · rw [List.cons_append, ← heq]
        · intro hmem
          rcases List.mem_cons.mp hmem with hmc | hmk
          · exact hc hmc.symm
          · exact hnk hmk

/-- C7: `ParseBootConfig` on the single line
`CabCmdBranches = "test\x20me", "here", "ok"` produces exactly
`CabCmdBranches=test\x20me,here,ok`; and in general, for any single-line
input `key=value`, the output line is the whitespace-trimmed key, then `=`
with no surrounding spaces, then the value's tokenized fields re-joined
with `,`. -/
theorem c7_bootconfig_line :
    (ParseBootConfig (strBytes "CabCmdBranches = \"test\\x20me\", \"here\", \"ok\"") =
      (some [strBytes "CabCmdBranches=test\\x20me,here,ok"], none)) ∧
    (∀ (k v : List Nat) (fs : Option (List (List Nat))),
      0x0A ∉ k ++ 0x3D :: v → ¬ (k ++ 0x3D :: v).getLast? = some 0x0D → 0x3D ∉ k →
      ShellSplitEx v cfgPred = (fs, none) →
      ParseBootConfig (k ++ 0x3D :: v) =
        (some [trimSpace k ++ 0x3D :: joinSep [0x2C] (fs.getD [])], none)) := by
  constructor
  · decide
  · intro k v fs hnl hcr hk hsse
    have hne : k ++ 0x3D :: v ≠ [] := by simp
    unfold ParseBootConfig
    rw [splitLines_single _ hne hnl hcr,
      bootLoop_okstep _ [] [] k v fs (splitFirstEq_append k v hk) hsse,
      bootLoop]
    rw [List.nil_append]

/-- C7, witness: the general single-line statement applied to `k=v`. -/
theorem c7_witness :
    ShellSplitEx [118] cfgPred = (some [[118]], none) ∧
    ParseBootConfig ([107] ++ 0x3D :: [118]) =
      (some [trimSpace [107] ++ 0x3D ::
        joinSep [0x2C] ((some [[118]] : Option (List (List Nat))).getD [])], none) :=
  ⟨by decide,
   c7_bootconfig_line.2 [107] [118] (some [[118]])
     (by decide) (by decide) (by decide) (by decide)⟩

/-- C8, amended: if the scanned lines of the input contain a line with no
`=` and every earlier line parses successfully (has an `=` and its value
tokenizes without error), then `ParseBootConfig` fails with
`MissingSeparator` naming that line verbatim and returns no results at all;
moreover lines are split on the first `=` only (the key part of a
successful split never contains `=`). -/
theorem c8_missing_separator :
    (∀ (input : List Nat) (pre rest : List (List Nat)) (bad : List Nat),
      splitLines input = pre ++ bad :: rest → 0x3D ∉ bad →
      (∀ l ∈ pre, ∃ k v fs, splitFirstEq l = some (k, v) ∧
        ShellSplitEx v cfgPred = (fs, none)) →
      ParseBootConfig input = (none, some (.missingSep bad))) ∧
    (∀ (l k v : List Nat), splitFirstEq l = some (k, v) →
      l = k ++ 0x3D :: v ∧ 0x3D ∉ k) := by
  constructor
  · intro input pre rest bad hlines hbad hpre
    unfold ParseBootConfig
    rw [hlines]
    have hgen : ∀ (q : List (List Nat)) (cmds : List (List Nat)),
        (∀ l ∈ q, ∃ k v fs, splitFirstEq l = some (k, v) ∧
          ShellSplitEx v cfgPred = (fs, none)) →
        bootLoop (q ++ bad :: rest) cmds = (none, some (.missingSep bad)) := by
      intro q
      induction q with
      | nil =>
        intro cmds _
        rw [List.nil_append]
        exact bootLoop_missing bad rest cmds (splitFirstEq_none bad hbad)
      | cons l q ih =>
        intro cmds hall
        obtain ⟨k, v, fs, hsp, hsse⟩ := hall l (by simp)
        rw [List.cons_append, bootLoop_okstep l _ cmds k v fs hsp hsse]
        exact ih _ (fun l2 hl2 => hall l2 (by simp [hl2]))
    exact hgen pre [] hpre
  · exact splitFirstEq_sound

/-- C8, witness: the amended statement applied to the input `a=1` + newline
+ `b`: the first line parses, the second has no `=`, and the call fails with
`MissingSeparator` naming `b`. -/
theorem c8_witness :
    splitLines (strBytes "a=1\nb") = [strBytes "a=1"] ++ strBytes "b" :: [] ∧
    (0x3D ∉ strBytes "b") ∧
    ParseBootConfig (strBytes "a=1\nb") =
      (none, some (.missingSep (strBytes "b"))) :=
  ⟨by decide, by decide,
   c8_missing_separator.1 (strBytes "a=1\nb") [strBytes "a=1"] [] (strBytes "b")
     (by decide) (by decide)
     (by
       intro l hl
       simp only [List.mem_singleton] at hl
       subst hl
       exact ⟨[97], [49], some [[49]], by decide, by decide⟩)⟩
